import Mathlib

/-!
Shallow embedding of the Qumquat quantum-simulator core (`src/qumquat/main.py`)
and verification of its specification claims.

Modelling conventions
---------------------

* A branch (`main.py`, a dict `{"amp": complex, reg_id: es_int, ...}`) is split
  into its complex amplitude `amp`, the value `tgt` of the one distinguished
  target register (`key.index()` of the key the primitive under scrutiny acts
  on), and `rest : ρ`, an abstract type collecting the contents of every other
  allocated register.  Two branches are structurally equal (`branchesEqual` in
  the source, which skips the `"amp"` entry) iff they agree on `tgt` and `rest`.

* The enriched-integer type `es_int` lives in `qvars.py`, which is not part of
  the sources under scrutiny; following §6 of the specification ("signed
  integer with bit-index read/write, LSB-indexed, zero-extended") it is
  modelled from the spec as `ℤ`, with bit access acting on the magnitude and
  preserving the sign (`ibit`, `isetBit` below).  Python's `%` on ints agrees
  with `Int.emod` for positive divisors.

* Expressions (`qvars.Expression`, also external) are modelled semantically as
  functions from a configuration to `ℤ` (resp. `ℝ` for `phase`).  The purely
  syntactic checks the source performs on an expression's key-set
  (`key.key in expr.keys`, `assert_mutable`) are modelled by boolean
  parameters (`keyInCtrls`, `bitUsesKey`, ...) passed alongside the
  expression, since the key-set is not recoverable from the semantics.

* Python floats and complexes are modelled as exact `ℝ` / `ℂ`.

* Python exceptions are modelled with `Except QErr`; `SyntaxError`,
  `ValueError` and `TypeError` map to the three constructors of `QErr`
  (an extra constructor models the uncaught `IndexError` that `measure`
  can hit on an empty branch list).  String messages follow the source up
  to punctuation.

* Primitives are modelled at dispatch time (empty action-queue check
  `queue_action` already passed); the queue stack is carried in the state
  because `measure`/`postselect`/`measure_state` behaviour while a queueing
  scope is open is one of the claims, but queue contents are never read by
  the embedded operations, so entries are abstracted to `Unit`.
-/

namespace Qumquat

/-- Pruning / tolerance threshold `thresh = 1e-10` (main.py line 81). -/
noncomputable def thresh : ℝ := 1 / 10 ^ 10

/-- Configuration of one branch: target-register value and the rest of the
registers. -/
abbrev Cfg (ρ : Type) := ℤ × ρ

/-- One branch of the superposition. -/
@[ext]
structure Branch (ρ : Type) where
  amp : ℂ
  tgt : ℤ
  rest : ρ

/-- Configuration of a branch: everything the source's `branchesEqual`
compares (every register value, skipping `"amp"`). -/
def Branch.cfg {ρ : Type} (b : Branch ρ) : Cfg ρ := (b.tgt, b.rest)

/-- Integer-valued expression, modelled semantically (`Expression.c`). -/
abbrev Expr (ρ : Type) := Cfg ρ → ℤ

/-- Simulator state: branch list, control stack, mode stack and queue stack
(queue entries abstracted, see header). -/
structure Sim (ρ : Type) where
  branches : List (Branch ρ)
  controls : List (Expr ρ)
  modeStack : List String
  queueStack : List (List Unit)

/-- Python exception kinds raised by the engine. -/
inductive QErr where
  | syntaxErr (msg : String)
  | valueErr (msg : String)
  | typeErr (msg : String)
  | indexErr
  deriving DecidableEq

/-- Whether every control evaluates to nonzero on the branch (the source's
`goodbranch` / membership in `controlled_branches`). -/
def goodB {ρ : Type} (ctrls : List (Expr ρ)) (b : Branch ρ) : Bool :=
  ctrls.all (fun ctrl => ctrl b.cfg != 0)

/-- Total amplitude a branch list assigns to a configuration (the coherent
sum; branch order is irrelevant to it). -/
def den {ρ : Type} [DecidableEq ρ] (l : List (Branch ρ)) (c : Cfg ρ) : ℂ :=
  (l.map (fun b => if b.cfg = c then b.amp else 0)).sum

/-- Sum of squared amplitude magnitudes of a branch list. -/
noncomputable def sqAmps {ρ : Type} (l : List (Branch ρ)) : ℝ :=
  (l.map (fun b => Complex.abs b.amp ^ 2)).sum

/-- Division of every amplitude of a list by `√p` (the renormalization step
shared by `postselect`, `measure` and `measure_state`). -/
noncomputable def renormBy {ρ : Type} (l : List (Branch ρ)) (p : ℝ) : List (Branch ρ) :=
  l.map (fun b => ⟨b.amp / (Real.sqrt p : ℂ), b.tgt, b.rest⟩)

/-- Coherent insertion of a branch into a list: add the amplitude into the
first structurally equal entry, else append (the source's `insertBranch` /
`insert` helpers). -/
def insertB {ρ : Type} [DecidableEq ρ] : List (Branch ρ) → Branch ρ → List (Branch ρ)
  | [], b => [b]
  | x :: xs, b =>
    if x.cfg = b.cfg then { x with amp := x.amp + b.amp } :: xs
    else x :: insertB xs b

/-- Fold a list of branches into an accumulator by coherent insertion. -/
def mergeInto {ρ : Type} [DecidableEq ρ] (acc : List (Branch ρ)) (l : List (Branch ρ)) :
    List (Branch ρ) :=
  l.foldl insertB acc

/-- Expansion of a branch list where each branch is replaced by a list of
image branches (the `for branch in self.branches: ...` loops building
`newbranches`). -/
def expandWith {ρ : Type} (f : Branch ρ → List (Branch ρ)) : List (Branch ρ) → List (Branch ρ)
  | [] => []
  | b :: bs => f b ++ expandWith f bs

/-- Branch pruning (main.py 82-94): keep branches with `|amp| > thresh`
(strict), then divide every kept amplitude by the norm of the kept set. -/
noncomputable def prune {ρ : Type} (l : List (Branch ρ)) : List (Branch ρ) :=
  let kept := l.filter (fun b => decide (thresh < Complex.abs b.amp))
  let norm := Real.sqrt (sqAmps kept)
  kept.map (fun b => ⟨b.amp / (norm : ℂ), b.tgt, b.rest⟩)

/-- Pairwise structural distinctness of a branch list (global invariant 5). -/
def Dcfg {ρ : Type} (l : List (Branch ρ)) : Prop :=
  l.Pairwise (fun a b => a.cfg ≠ b.cfg)

/-- Modelled from the spec: bit-index read of the enriched integer `es_int`
(`qvars.py`, not under the sources): LSB-indexed read on the magnitude. -/
def ibit (v : ℤ) (i : ℕ) : Bool := v.natAbs.testBit i

/-- Modelled from the spec: bit-index write of the enriched integer `es_int`
(`qvars.py`, not under the sources): mutate the magnitude's bit `i`,
preserving the sign flag. -/
def isetBit (v : ℤ) (i : ℕ) (x : Bool) : ℤ :=
  let m := v.natAbs
  let m' := if m.testBit i = x then m else if x then m + 2 ^ i else m - 2 ^ i
  (if v < 0 then -1 else 1) * (m' : ℤ)

/-! ## Primitives -/

/-- Initialization with an Expression value (main.py 173-188): reject a
controlled target, reject a nonzero target on an active branch, reject
floating expressions, then set the target to the expression's value on every
active branch. -/
def init_expr {ρ : Type} [DecidableEq ρ] (s : Sim ρ) (val : Expr ρ)
    (valFloat keyInCtrls : Bool) : Except QErr (Sim ρ) :=
  if keyInCtrls then .error (.syntaxErr "Cannot modify value of controlling register.")
  else if s.branches.any (fun b => goodB s.controls b && b.tgt != 0) then
    .error (.valueErr "Register already initialized!")
  else if valFloat then .error (.typeErr "Quantum registers can only contain ints")
  else .ok { s with branches := s.branches.map (fun b =>
      if goodB s.controls b then ⟨b.amp, val b.cfg, b.rest⟩ else b) }

/-- Initialization with a list value (main.py 190-212): uniform superposition
over the list entries on each active branch, amplitude divided by `√N`;
frozen branches pass through; repeated values rejected. -/
noncomputable def init_list {ρ : Type} [DecidableEq ρ] (s : Sim ρ) (val : List ℤ)
    (keyInCtrls : Bool) : Except QErr (Sim ρ) :=
  if keyInCtrls then .error (.syntaxErr "Cannot modify value of controlling register.")
  else if s.branches.any (fun b => goodB s.controls b && b.tgt != 0) then
    .error (.valueErr "Register already initialized!")
  else if ¬ val.Nodup then
    .error (.valueErr "Superpositions cannot contain repeated values.")
  else
    let f : Branch ρ → List (Branch ρ) := fun b =>
      if goodB s.controls b then
        val.map (fun x => ⟨b.amp / (Real.sqrt val.length : ℂ), x, b.rest⟩)
      else [b]
    .ok { s with branches := expandWith f s.branches }

/-- Uncomputation of an Expression initialization (main.py 243-260).  Each
branch must hold `val` (resp. `0` on frozen branches); otherwise a
`ValueError` is raised.  NOTE (faithful to the source): the assignment
`branch[key.index()] = es_int(0)` at line 260 sits after the `raise` and is
unreachable, so on success the target register is left unchanged. -/
def init_inv_expr {ρ : Type} [DecidableEq ρ] (s : Sim ρ) (val : Expr ρ)
    (keyInCtrls : Bool) : Except QErr (Sim ρ) :=
  if keyInCtrls then .error (.syntaxErr "Cannot modify value of controlling register.")
  else if s.branches.all (fun b =>
      b.tgt == (if goodB s.controls b then val b.cfg else 0)) then .ok s
  else .error (.valueErr "Failed to uncompute: not all branches matched specified value.")

/-- Image branches of the Hadamard (main.py 1116-1135): each active branch
splits into the two settings of bit `bit` of the target, amplitudes `amp/√2`,
with a sign flip on the bit-1 image when the source bit was 1. -/
noncomputable def hadExpand {ρ : Type} (s : Sim ρ) (bit : Expr ρ) : List (Branch ρ) :=
  expandWith (fun b =>
    if goodB s.controls b then
      [⟨b.amp / (Real.sqrt 2 : ℂ), isetBit b.tgt (bit b.cfg).toNat false, b.rest⟩,
       ⟨(if ibit b.tgt (bit b.cfg).toNat then -1 else 1) * (b.amp / (Real.sqrt 2 : ℂ)),
        isetBit b.tgt (bit b.cfg).toNat true, b.rest⟩]
    else [b]) s.branches

/-- Merged (pre-prune) Hadamard branch list. -/
noncomputable def hadMerged {ρ : Type} [DecidableEq ρ] (s : Sim ρ) (bit : Expr ρ) :
    List (Branch ρ) :=
  mergeInto [] (hadExpand s bit)

/-- Hadamard primitive (main.py 1094-1138): `assert_mutable`, the
self-reference guard on the bit expression, then split-merge-prune. -/
noncomputable def had {ρ : Type} [DecidableEq ρ] (s : Sim ρ) (bit : Expr ρ)
    (keyInCtrls bitUsesKey : Bool) : Except QErr (Sim ρ) :=
  if keyInCtrls then .error (.syntaxErr "Cannot modify value of controlling register.")
  else if bitUsesKey then
    .error (.syntaxErr "Cannot hadamard variable in bit depending on itself.")
  else .ok { s with branches := prune (hadMerged s bit) }

/-- Root-of-unity phase factor `exp(2πi·m/d)` as built by the source's
`cmath.exp(v*i*2j*math.pi/d)`. -/
noncomputable def zfac (d m : ℤ) : ℂ :=
  Complex.exp ((((m : ℝ) * (2 * Real.pi)) / (d : ℝ)) * Complex.I)

/-- Image branches of the QFT (main.py 1169-1190): each active branch of
value `v` becomes `d` branches with values `base + i` (`base = v - v % d`)
and amplitudes `amp · exp(±2πi·v·i/d)/√d`. -/
noncomputable def qftExpand {ρ : Type} (s : Sim ρ) (d : Expr ρ) (inverse : Bool) :
    List (Branch ρ) :=
  expandWith (fun b =>
    if goodB s.controls b then
      (List.range (d b.cfg).toNat).map (fun (i : ℕ) =>
        ⟨b.amp * (1 / (Real.sqrt ((d b.cfg : ℤ) : ℝ) : ℂ)) *
          zfac (d b.cfg) ((if inverse then -1 else 1) * (b.tgt * (i : ℤ))),
         (b.tgt - b.tgt % d b.cfg) + (i : ℤ), b.rest⟩)
    else [b]) s.branches

/-- Whether the QFT's per-branch modulus check fails on some active branch
(main.py 1174-1175 raises when `dval ≤ 1`). -/
def qftBad {ρ : Type} (s : Sim ρ) (d : Expr ρ) : Bool :=
  s.branches.any (fun b => goodB s.controls b && decide (d b.cfg ≤ 1))

/-- The successful QFT state transformation: expand, merge, prune. -/
noncomputable def qftRun {ρ : Type} [DecidableEq ρ] (s : Sim ρ) (d : Expr ρ)
    (inverse : Bool) : Sim ρ :=
  { s with branches := prune (mergeInto [] (qftExpand s d inverse)) }

/-- QFT primitive (main.py 1147-1194): `assert_mutable`, self-reference guard
on `d`, per-branch modulus check, then expand-merge-prune. -/
noncomputable def qft {ρ : Type} [DecidableEq ρ] (s : Sim ρ) (d : Expr ρ)
    (inverse keyInCtrls dUsesKey : Bool) : Except QErr (Sim ρ) :=
  if keyInCtrls then .error (.syntaxErr "Cannot modify value of controlling register.")
  else if dUsesKey then
    .error (.syntaxErr "Cannot modify target based on expression that depends on target.")
  else if qftBad s d then .error (.valueErr "QFT must be over a positive integer")
  else .ok (qftRun s d inverse)

/-- Inverse QFT (main.py 1196-1197): the forward QFT with `inverse` flipped. -/
noncomputable def qft_inv {ρ : Type} [DecidableEq ρ] (s : Sim ρ) (d : Expr ρ)
    (inverse keyInCtrls dUsesKey : Bool) : Except QErr (Sim ρ) :=
  qft s d (! inverse) keyInCtrls dUsesKey

/-- Arithmetic mutation primitive (main.py 1203-1210): set the target to
`do(branch)` on every active branch (`doFn` is the source's `do` callback). -/
def oper {ρ : Type} [DecidableEq ρ] (s : Sim ρ) (doFn : Cfg ρ → ℤ)
    (keyInCtrls exprUsesKey : Bool) : Except QErr (Sim ρ) :=
  if keyInCtrls then .error (.syntaxErr "Cannot modify value of controlling register.")
  else if exprUsesKey then
    .error (.syntaxErr "Cannot modify target based on expression that depends on target.")
  else .ok { s with branches := s.branches.map (fun b =>
      if goodB s.controls b then ⟨b.amp, doFn b.cfg, b.rest⟩ else b) }

/-- Phase primitive (main.py 1215-1220): multiply each active branch's
amplitude by `exp(i·θ)`. -/
noncomputable def phase {ρ : Type} (s : Sim ρ) (theta : Cfg ρ → ℝ) : Sim ρ :=
  { s with branches := s.branches.map (fun b =>
      if goodB s.controls b then
        ⟨b.amp * Complex.exp (Complex.I * (theta b.cfg : ℂ)), b.tgt, b.rest⟩
      else b) }

/-- The per-branch CNOT action (main.py 1242-1243): flip bit `v2` of the
target when bit `v1` is 1. -/
def cnotFlip {ρ : Type} (b : Branch ρ) (v1 v2 : ℕ) : Branch ρ :=
  if ibit b.tgt v1 then ⟨b.amp, isetBit b.tgt v2 (! ibit b.tgt v2), b.rest⟩ else b

/-- The CNOT branch loop (main.py 1238-1243), processing branches in order
and aborting with a `ValueError` on the first active branch whose two index
expressions evaluate equal. -/
def cnotGo {ρ : Type} [DecidableEq ρ] (ctrls : List (Expr ρ)) (idx1 idx2 : Expr ρ) :
    List (Branch ρ) → Except QErr (List (Branch ρ))
  | [] => .ok []
  | b :: bs =>
    if goodB ctrls b then
      let v1 := idx1 b.cfg
      let v2 := idx2 b.cfg
      if v1 = v2 then .error (.valueErr "Cannot perform CNOT from index to itself.")
      else (cnotGo ctrls idx1 idx2 bs).map (fun l => cnotFlip b v1.toNat v2.toNat :: l)
    else (cnotGo ctrls idx1 idx2 bs).map (fun l => b :: l)

/-- CNOT primitive (main.py 1228-1243): `assert_mutable`, self-reference
guard on the index expressions, then the branch loop. -/
def cnot {ρ : Type} [DecidableEq ρ] (s : Sim ρ) (idx1 idx2 : Expr ρ)
    (keyInCtrls idxUsesKey : Bool) : Except QErr (Sim ρ) :=
  if keyInCtrls then .error (.syntaxErr "Cannot modify value of controlling register.")
  else if idxUsesKey then
    .error (.syntaxErr "Cannot modify target based on expression that depends on target.")
  else (cnotGo s.controls idx1 idx2 s.branches).map (fun l => { s with branches := l })

/-! ## Measurement operations -/

/-- Body of `postselect` after the mode-stack guard (main.py 801-817): keep
the branches where `expr` is nonzero, return their total pre-normalization
probability, and divide the kept amplitudes by its square root. -/
noncomputable def postselectGo {ρ : Type} (s : Sim ρ) (expr : Expr ρ) :
    Except QErr (ℝ × Sim ρ) :=
  let kept := s.branches.filter (fun b => expr b.cfg != 0)
  let prob := sqAmps kept
  let renorm := kept.map (fun b => ⟨b.amp / (Real.sqrt prob : ℂ), b.tgt, b.rest⟩)
  if kept.isEmpty then .error (.valueErr "Postselection failed!")
  else .ok (prob, { s with branches := renorm })

/-- Postselection (main.py 797-817): top-level-only guard, then
`postselectGo`. -/
noncomputable def postselect {ρ : Type} (s : Sim ρ) (expr : Expr ρ) :
    Except QErr (ℝ × Sim ρ) :=
  if s.modeStack.isEmpty then postselectGo s expr
  else .error (.syntaxErr "Can only measure at top-level.")

/-- Grouping step of `dist` (main.py 744-759): append the branch to the group
of its expression value, first-occurrence order. -/
def addG {ρ : Type} : List (ℤ × List (Branch ρ)) → ℤ → Branch ρ → List (ℤ × List (Branch ρ))
  | [], v, b => [(v, [b])]
  | (w, bs) :: t, v, b =>
    if w = v then (w, bs ++ [b]) :: t else (w, bs) :: addG t v b

/-- Branch groups of a single expression, in first-occurrence order. -/
def distGroups {ρ : Type} (l : List (Branch ρ)) (e : Expr ρ) : List (ℤ × List (Branch ρ)) :=
  l.foldl (fun gs b => addG gs (e b.cfg) b) []

/-- Sorted insertion by expression value (main.py 761-766 sorts the groups by
value). -/
def insertSorted {ρ : Type} (g : ℤ × List (Branch ρ)) :
    List (ℤ × List (Branch ρ)) → List (ℤ × List (Branch ρ))
  | [] => [g]
  | h :: t => if g.1 < h.1 then g :: h :: t else h :: insertSorted g t

/-- Sort the groups by value. -/
def sortG {ρ : Type} : List (ℤ × List (Branch ρ)) → List (ℤ × List (Branch ρ))
  | [] => []
  | h :: t => insertSorted h (sortG t)

/-- Cumulative-probability outcome pick of `measure` (main.py 780-787): first
group whose probability pushes the cumulative sum past `r`; Python's `-1`
fallback index selects the last group when none does. -/
noncomputable def pickG {ρ : Type} : List (ℤ × List (Branch ρ)) → ℝ →
    Option (ℤ × List (Branch ρ))
  | [], _ => none
  | [g], _ => some g
  | g :: g2 :: t, r =>
    if r < sqAmps g.2 then some g else pickG (g2 :: t) (r - sqAmps g.2)

/-- Body of `measure` after the mode-stack guard (main.py 777-794), with the
uniform draw `random()` passed in as `r`; the collapse keeps the picked
group's branches and renormalizes them. -/
noncomputable def measureGo {ρ : Type} (s : Sim ρ) (e : Expr ρ) (r : ℝ) :
    Except QErr (ℤ × Sim ρ) :=
  match pickG (sortG (distGroups s.branches e)) r with
  | none => .error .indexErr
  | some (v, bs) =>
    let renorm := bs.map (fun b => ⟨b.amp / (Real.sqrt (sqAmps bs) : ℂ), b.tgt, b.rest⟩)
    .ok (v, { s with branches := renorm })

/-- Measurement (main.py 773-794): top-level-only guard, then `measureGo`. -/
noncomputable def measure {ρ : Type} (s : Sim ρ) (e : Expr ρ) (r : ℝ) :
    Except QErr (ℤ × Sim ρ) :=
  if s.modeStack.isEmpty then measureGo s e r
  else .error (.syntaxErr "Can only measure at top-level.")

/-- Body of the Expression category of `measure_state` after the mode-stack
guard (main.py 823-860 and 999-1000), with the `random()` draw passed in as
`r`.  The returned value is `Sum.inr prob` exactly when `postselect` is
truthy (`some true`), else the boolean `Sum.inl outcome`, mirroring
`if postselect: return prob / return outcome`. -/
noncomputable def msGo {ρ : Type} [DecidableEq ρ] (s : Sim ρ) (val : Expr ρ)
    (valFloat valUsesKey keyInCtrls : Bool) (post : Option Bool) (r : ℝ) :
    Except QErr ((Bool ⊕ ℝ) × Sim ρ) :=
  if keyInCtrls then .error (.syntaxErr "Cannot modify value of controlling register.")
  else if valFloat then .error (.typeErr "Quantum registers can only contain ints")
  else if valUsesKey then
    .error (.syntaxErr "Cannot measure target with state that depends on target.")
  else
    let prob := sqAmps (s.branches.filter (fun b => b.tgt == val b.cfg))
    let chk : Except QErr Bool :=
      match post with
      | none => .ok (decide (r < prob))
      | some true =>
        if prob < thresh then .error (.valueErr "Postselection failed!") else .ok true
      | some false =>
        if 1 - thresh < prob then .error (.valueErr "Postselection failed!") else .ok false
    chk.bind (fun outcome =>
      let newbranches := s.branches.filter (fun b => (b.tgt == val b.cfg) == outcome)
      let prob2 := if outcome then prob else 1 - prob
      .ok ((if post = some true then Sum.inr prob2 else Sum.inl outcome),
        { s with branches :=
          newbranches.map (fun b => ⟨b.amp / (Real.sqrt prob2 : ℂ), b.tgt, b.rest⟩) }))

/-- The Expression category of `measure_state` (main.py 819-860, 999-1000):
top-level-only guard, then `msGo`. -/
noncomputable def measure_state {ρ : Type} [DecidableEq ρ] (s : Sim ρ) (val : Expr ρ)
    (valFloat valUsesKey keyInCtrls : Bool) (post : Option Bool) (r : ℝ) :
    Except QErr ((Bool ⊕ ℝ) × Sim ρ) :=
  if s.modeStack.isEmpty then msGo s val valFloat valUsesKey keyInCtrls post r
  else .error (.syntaxErr "Can only measure at top-level.")

/-- Entry action of the `inv` scope (main.py 1266-1271): push mode `"inv"`
and open a queue. -/
def invEnter {ρ : Type} (s : Sim ρ) : Sim ρ :=
  { s with modeStack := "inv" :: s.modeStack, queueStack := [] :: s.queueStack }

/-- Entry action of the `q_while` scope (main.py 1306-1308): open a queue;
no mode is pushed. -/
def whileEnter {ρ : Type} (s : Sim ρ) : Sim ρ :=
  { s with queueStack := [] :: s.queueStack }

/-- The kept sublist of a pruning step. -/
noncomputable def keptL {ρ : Type} (l : List (Branch ρ)) : List (Branch ρ) :=
  l.filter (fun b => decide (thresh < Complex.abs b.amp))

/-! ## Concrete states used as test inputs -/

/-- Fresh one-branch top-level state with the target register at 0. -/
def s0 : Sim Unit := ⟨[⟨1, 0, ()⟩], [], [], []⟩

/-- Two-branch state over a freshly-pruned boundary: one branch of amplitude
1, one of amplitude exactly `thresh`. -/
noncomputable def pruneCex : List (Branch Unit) := [⟨1, 0, ()⟩, ⟨((thresh : ℝ) : ℂ), 1, ()⟩]

/-- Normalized two-branch state `3/5·|0⟩ + 4/5·|1⟩`. -/
noncomputable def sHalf : Sim Unit :=
  ⟨[⟨(((3 : ℝ)/5 : ℝ) : ℂ), 0, ()⟩, ⟨(((4 : ℝ)/5 : ℝ) : ℂ), 1, ()⟩], [], [], []⟩

/-- One-branch top-level state inside an open `q_while` body scope. -/
def sWhile : Sim Unit := whileEnter ⟨[⟨1, 0, ()⟩], [], [], []⟩

/-- Two-branch controlled test state over `ρ = ℤ` (the extra register is
read by the single control): branch `(5, 0)` is frozen by the control,
branch `(0, 1)` is active. -/
noncomputable def sC4 : Sim ℤ :=
  ⟨[⟨(((3 : ℝ)/5 : ℝ) : ℂ), 5, 0⟩, ⟨(((4 : ℝ)/5 : ℝ) : ℂ), 0, 1⟩],
   [fun c => c.2], [], []⟩

/-! ## Basic lemmas -/

@[simp]
theorem Branch.cfg_mk {ρ : Type} (a : ℂ) (t : ℤ) (r : ρ) :
    (Branch.mk a t r).cfg = (t, r) := rfl

theorem thresh_pos : 0 < thresh := by unfold thresh; norm_num

@[simp]
theorem den_nil {ρ : Type} [DecidableEq ρ] (c : Cfg ρ) : den ([] : List (Branch ρ)) c = 0 := rfl

theorem den_cons {ρ : Type} [DecidableEq ρ] (b : Branch ρ) (l : List (Branch ρ)) (c : Cfg ρ) :
    den (b :: l) c = (if b.cfg = c then b.amp else 0) + den l c := by
  simp [den]

theorem den_append {ρ : Type} [DecidableEq ρ] (l1 l2 : List (Branch ρ)) (c : Cfg ρ) :
    den (l1 ++ l2) c = den l1 c + den l2 c := by
  simp [den]

theorem den_eq_zero_of_forall {ρ : Type} [DecidableEq ρ] {l : List (Branch ρ)} {c : Cfg ρ}
    (h : ∀ b ∈ l, b.cfg ≠ c) : den l c = 0 := by
  induction l with
  | nil => rfl
  | cons b bs ih =>
    rw [den_cons, if_neg (h b (by simp)), ih (fun x hx => h x (by simp [hx])), add_zero]

theorem exists_mem_of_den_ne {ρ : Type} [DecidableEq ρ] {l : List (Branch ρ)} {c : Cfg ρ}
    (h : den l c ≠ 0) : ∃ b ∈ l, b.cfg = c := by
  by_contra hc
  push_neg at hc
  exact h (den_eq_zero_of_forall hc)

theorem den_eq_amp_of_mem {ρ : Type} [DecidableEq ρ] {l : List (Branch ρ)} {b : Branch ρ}
    (hd : Dcfg l) (hb : b ∈ l) : den l b.cfg = b.amp := by
  induction l with
  | nil => cases hb
  | cons x xs ih =>
    rcases List.pairwise_cons.mp hd with ⟨hx, hxs⟩
    rcases List.mem_cons.mp hb with hbx | hbs
    · subst hbx
      rw [den_cons, if_pos rfl,
        den_eq_zero_of_forall (fun y hy => fun hyc => hx y hy hyc.symm), add_zero]
    · rw [den_cons, if_neg (fun hc => hx b hbs hc), zero_add, ih hxs hbs]

theorem den_insertB {ρ : Type} [DecidableEq ρ] (l : List (Branch ρ)) (b : Branch ρ)
    (c : Cfg ρ) :
    den (insertB l b) c = den l c + (if b.cfg = c then b.amp else 0) := by
  induction l with
  | nil => rw [insertB, den_cons, den_nil]; ring
  | cons x xs ih =>
    by_cases h : x.cfg = b.cfg
    · have hcfg : ({ x with amp := x.amp + b.amp } : Branch ρ).cfg = x.cfg := rfl
      rw [insertB, if_pos h, den_cons, den_cons, hcfg, h]
      split_ifs <;> ring
    · rw [insertB, if_neg h, den_cons, den_cons, ih]; ring

theorem den_mergeInto {ρ : Type} [DecidableEq ρ] (acc l : List (Branch ρ)) (c : Cfg ρ) :
    den (mergeInto acc l) c = den acc c + den l c := by
  induction l generalizing acc with
  | nil => simp [mergeInto]
  | cons b bs ih =>
    have : mergeInto acc (b :: bs) = mergeInto (insertB acc b) bs := rfl
    rw [this, ih, den_insertB, den_cons]; ring

theorem cfg_mem_insertB {ρ : Type} [DecidableEq ρ] {l : List (Branch ρ)} {b x : Branch ρ}
    (hx : x ∈ insertB l b) : x.cfg = b.cfg ∨ ∃ y ∈ l, x.cfg = y.cfg := by
  induction l with
  | nil =>
    rw [insertB] at hx
    rcases List.mem_singleton.mp hx with h
    exact Or.inl (by rw [h])
  | cons z zs ih =>
    rw [insertB] at hx
    by_cases h : z.cfg = b.cfg
    · rw [if_pos h] at hx
      rcases List.mem_cons.mp hx with h1 | h1
      · exact Or.inr ⟨z, by simp, by rw [h1]; rfl⟩
      · exact Or.inr ⟨x, by simp [h1], rfl⟩
    · rw [if_neg h] at hx
      rcases List.mem_cons.mp hx with h1 | h1
      · exact Or.inr ⟨z, by simp, by rw [h1]⟩
      · rcases ih h1 with h2 | ⟨y, hy, h2⟩
        · exact Or.inl h2
        · exact Or.inr ⟨y, by simp [hy], h2⟩

theorem Dcfg_insertB {ρ : Type} [DecidableEq ρ] {l : List (Branch ρ)} {b : Branch ρ}
    (h : Dcfg l) : Dcfg (insertB l b) := by
  induction l with
  | nil => exact List.pairwise_singleton _ _
  | cons x xs ih =>
    rcases List.pairwise_cons.mp h with ⟨hx, hxs⟩
    by_cases hc : x.cfg = b.cfg
    · rw [insertB, if_pos hc]
      exact List.pairwise_cons.mpr ⟨fun y hy => hx y hy, hxs⟩
    · rw [insertB, if_neg hc]
      refine List.pairwise_cons.mpr ⟨?_, ih hxs⟩
      intro y hy
      rcases cfg_mem_insertB hy with h1 | ⟨z, hz, h1⟩
      · rw [h1]; exact fun hxc => hc hxc
      · rw [h1]; exact hx z hz

theorem Dcfg_mergeInto {ρ : Type} [DecidableEq ρ] (acc l : List (Branch ρ))
    (h : Dcfg acc) : Dcfg (mergeInto acc l) := by
  induction l generalizing acc with
  | nil => exact h
  | cons b bs ih => exact ih (insertB acc b) (Dcfg_insertB h)

theorem den_expandWith {ρ : Type} [DecidableEq ρ] (f : Branch ρ → List (Branch ρ))
    (l : List (Branch ρ)) (c : Cfg ρ) :
    den (expandWith f l) c = (l.map (fun b => den (f b) c)).sum := by
  induction l with
  | nil => rfl
  | cons b bs ih => rw [expandWith, den_append, ih, List.map_cons, List.sum_cons]

theorem mem_expandWith {ρ : Type} {f : Branch ρ → List (Branch ρ)} {l : List (Branch ρ)}
    {x : Branch ρ} : x ∈ expandWith f l ↔ ∃ b ∈ l, x ∈ f b := by
  induction l with
  | nil => simp [expandWith]
  | cons b bs ih => simp [expandWith, ih]

@[simp]
theorem sqAmps_nil {ρ : Type} : sqAmps ([] : List (Branch ρ)) = 0 := by simp [sqAmps]

theorem sqAmps_cons {ρ : Type} (b : Branch ρ) (l : List (Branch ρ)) :
    sqAmps (b :: l) = Complex.abs b.amp ^ 2 + sqAmps l := by
  simp [sqAmps]

theorem sqAmps_nonneg {ρ : Type} (l : List (Branch ρ)) : 0 ≤ sqAmps l := by
  induction l with
  | nil => simp
  | cons b bs ih => rw [sqAmps_cons]; exact add_nonneg (by positivity) ih

theorem sqAmps_pos_of_mem {ρ : Type} {l : List (Branch ρ)} {b : Branch ρ}
    (hb : b ∈ l) (h : b.amp ≠ 0) : 0 < sqAmps l := by
  induction l with
  | nil => cases hb
  | cons x xs ih =>
    rw [sqAmps_cons]
    rcases List.mem_cons.mp hb with h1 | h1
    · subst h1
      have h2 : 0 < Complex.abs b.amp := Complex.abs.pos h
      exact lt_of_lt_of_le (pow_pos h2 2) (le_add_of_nonneg_right (sqAmps_nonneg xs))
    · exact lt_of_lt_of_le (ih h1) (le_add_of_nonneg_left (by positivity))

theorem sqAmps_perm {ρ : Type} {l1 l2 : List (Branch ρ)} (h : l1.Perm l2) :
    sqAmps l1 = sqAmps l2 :=
  (h.map _).sum_eq

theorem den_map_scale {ρ : Type} [DecidableEq ρ] (l : List (Branch ρ)) (z : ℂ) (c : Cfg ρ) :
    den (l.map (fun b => (⟨b.amp / z, b.tgt, b.rest⟩ : Branch ρ))) c = den l c / z := by
  induction l with
  | nil => simp
  | cons b bs ih =>
    rw [List.map_cons, den_cons, den_cons, ih, add_div]
    have hcfg : (⟨b.amp / z, b.tgt, b.rest⟩ : Branch ρ).cfg = b.cfg := rfl
    rw [hcfg]
    congr 1
    split_ifs <;> simp

theorem sqAmps_map_scale {ρ : Type} (l : List (Branch ρ)) (ν : ℝ) (hν : 0 ≤ ν) :
    sqAmps (l.map (fun b => (⟨b.amp / (ν : ℂ), b.tgt, b.rest⟩ : Branch ρ)))
      = sqAmps l / ν ^ 2 := by
  induction l with
  | nil => simp
  | cons b bs ih =>
    rw [List.map_cons, sqAmps_cons, sqAmps_cons, ih, add_div]
    congr 1
    rw [map_div₀, Complex.abs_ofReal, abs_of_nonneg hν, div_pow]

theorem Dcfg_filter {ρ : Type} [DecidableEq ρ] (l : List (Branch ρ)) (p : Branch ρ → Bool)
    (h : Dcfg l) : Dcfg (l.filter p) :=
  h.sublist (List.filter_sublist l)

theorem Dcfg_map_scale {ρ : Type} [DecidableEq ρ] (l : List (Branch ρ)) (z : ℂ)
    (h : Dcfg l) :
    Dcfg (l.map (fun b => (⟨b.amp / z, b.tgt, b.rest⟩ : Branch ρ))) := by
  unfold Dcfg at *
  rw [List.pairwise_map]
  exact h

theorem prune_eq {ρ : Type} (l : List (Branch ρ)) :
    prune l = (keptL l).map
      (fun b => ⟨b.amp / (Real.sqrt (sqAmps (keptL l)) : ℂ), b.tgt, b.rest⟩) := rfl

theorem mem_keptL {ρ : Type} {l : List (Branch ρ)} {b : Branch ρ} :
    b ∈ keptL l ↔ b ∈ l ∧ thresh < Complex.abs b.amp := by
  unfold keptL
  rw [List.mem_filter]
  simp

theorem keptL_cons {ρ : Type} (b : Branch ρ) (l : List (Branch ρ)) :
    keptL (b :: l) = if thresh < Complex.abs b.amp then b :: keptL l else keptL l := by
  unfold keptL
  rw [List.filter_cons]
  by_cases h : thresh < Complex.abs b.amp
  · rw [if_pos (by simpa using h), if_pos h]
  · rw [if_neg (by simpa using h), if_neg h]

theorem den_keptL {ρ : Type} [DecidableEq ρ] {l : List (Branch ρ)}
    (h : ∀ b ∈ l, b.amp = 0 ∨ thresh < Complex.abs b.amp) (c : Cfg ρ) :
    den (keptL l) c = den l c := by
  induction l with
  | nil => rfl
  | cons b bs ih =>
    have ht : ∀ x ∈ bs, x.amp = 0 ∨ thresh < Complex.abs x.amp :=
      fun x hx => h x (List.mem_cons_of_mem _ hx)
    rw [keptL_cons]
    by_cases hk : thresh < Complex.abs b.amp
    · rw [if_pos hk, den_cons, den_cons, ih ht]
    · rcases h b (List.mem_cons_self b bs) with h0 | h0
      · rw [if_neg hk, den_cons, ih ht, h0]
        split_ifs <;> ring
      · exact absurd h0 hk

theorem den_prune {ρ : Type} [DecidableEq ρ] {l : List (Branch ρ)}
    (h : ∀ b ∈ l, b.amp = 0 ∨ thresh < Complex.abs b.amp) (c : Cfg ρ) :
    den (prune l) c = den l c / (Real.sqrt (sqAmps (keptL l)) : ℂ) := by
  rw [prune_eq, den_map_scale, den_keptL h]

theorem perm_of_den_eq {ρ : Type} [DecidableEq ρ] {l1 l2 : List (Branch ρ)} (hd1 : Dcfg l1)
    (hd2 : Dcfg l2) (hz1 : ∀ b ∈ l1, b.amp ≠ 0) (hz2 : ∀ b ∈ l2, b.amp ≠ 0)
    (hden : ∀ c, den l1 c = den l2 c) : l1.Perm l2 := by
  induction l1 generalizing l2 with
  | nil =>
    cases l2 with
    | nil => exact List.Perm.refl _
    | cons b bs =>
      exfalso
      apply hz2 b (List.mem_cons_self b bs)
      have h1 := den_eq_amp_of_mem hd2 (List.mem_cons_self b bs)
      rw [← h1, ← hden b.cfg]
      rfl
  | cons a t ih =>
    have ha : den l2 a.cfg = a.amp := by
      rw [← hden]; exact den_eq_amp_of_mem hd1 (List.mem_cons_self a t)
    have hne : den l2 a.cfg ≠ 0 := by
      rw [ha]; exact hz1 a (List.mem_cons_self a t)
    rcases exists_mem_of_den_ne hne with ⟨b, hb, hcfg⟩
    have hamp : b.amp = a.amp := by
      rw [← ha, ← hcfg]
      exact (den_eq_amp_of_mem hd2 hb).symm
    have hba : b = a :=
      Branch.ext hamp (congrArg Prod.fst hcfg) (congrArg Prod.snd hcfg)
    subst hba
    rcases List.append_of_mem hb with ⟨p, q, rfl⟩
    have hsub : List.Sublist (p ++ q) (p ++ b :: q) :=
      List.Sublist.append (List.Sublist.refl p) (List.sublist_cons_self b q)
    have hdt : ∀ c, den t c = den (p ++ q) c := by
      intro c
      have h2 := hden c
      rw [den_cons, den_append, den_cons] at h2
      have h3 : (if b.cfg = c then b.amp else 0) + den t c
          = (if b.cfg = c then b.amp else 0) + (den p c + den q c) := by
        rw [h2]; ring
      rw [den_append]
      exact add_left_cancel h3
    have hperm : t.Perm (p ++ q) :=
      ih (List.pairwise_cons.mp hd1).2 (hd2.sublist hsub)
        (fun x hx => hz1 x (List.mem_cons_of_mem _ hx))
        (fun x hx => hz2 x (hsub.mem hx)) hdt
    exact (hperm.cons b).trans List.perm_middle.symm

/-! ## Root-of-unity phase lemmas for the QFT -/

theorem listSum_range {M : Type} [AddCommMonoid M] (n : ℕ) (f : ℕ → M) :
    ((List.range n).map f).sum = ∑ i in Finset.range n, f i := by
  induction n with
  | zero => simp
  | succ k ih =>
    rw [List.range_succ, List.map_append, List.sum_append, Finset.sum_range_succ, ih]
    simp

theorem zfac_add (d a b : ℤ) : zfac d (a + b) = zfac d a * zfac d b := by
  unfold zfac
  rw [← Complex.exp_add]
  congr 1
  push_cast
  ring

theorem zfac_dvd {d m : ℤ} (hd : d ≠ 0) (h : d ∣ m) : zfac d m = 1 := by
  rcases h with ⟨k, rfl⟩
  unfold zfac
  rw [← Complex.exp_int_mul_two_pi_mul_I k]
  congr 1
  have hdc : ((d : ℤ) : ℂ) ≠ 0 := by exact_mod_cast hd
  push_cast
  field_simp
  ring

theorem zfac_eq_of_dvd_sub {d m m' : ℤ} (hd : d ≠ 0) (h : d ∣ m - m') :
    zfac d m = zfac d m' := by
  have h1 : zfac d m = zfac d (m' + (m - m')) := by
    congr 1
    ring
  rw [h1, zfac_add, zfac_dvd hd h, mul_one]

theorem zfac_pow (d m : ℤ) (j : ℕ) : zfac d (m * j) = zfac d m ^ j := by
  unfold zfac
  rw [← Complex.exp_nat_mul]
  congr 1
  push_cast
  ring

theorem zfac_eq_one_iff {d : ℤ} (hd : 0 < d) {m : ℤ} : zfac d m = 1 ↔ d ∣ m := by
  constructor
  · intro h
    unfold zfac at h
    rw [Complex.exp_eq_one_iff] at h
    rcases h with ⟨n, hn⟩
    have hn2 : ((((m : ℤ) : ℝ) * (2 * Real.pi) / ((d : ℤ) : ℝ) : ℝ) : ℂ) * Complex.I
        = ((((n : ℝ) * (2 * Real.pi)) : ℝ) : ℂ) * Complex.I := by
      push_cast at hn ⊢
      linear_combination hn
    have h2 := Complex.ofReal_inj.mp (mul_right_cancel₀ Complex.I_ne_zero hn2)
    have hdr : ((d : ℤ) : ℝ) ≠ 0 := Int.cast_ne_zero.mpr (ne_of_gt hd)
    have h3 : ((m : ℤ) : ℝ) * (2 * Real.pi) = (n : ℝ) * (2 * Real.pi) * ((d : ℤ) : ℝ) :=
      (div_eq_iff hdr).mp h2
    have h2pi : (2 * Real.pi) ≠ 0 := by positivity
    have h4 : ((m : ℤ) : ℝ) * (2 * Real.pi) = (((n * d : ℤ) : ℝ)) * (2 * Real.pi) := by
      push_cast
      linarith [h3]
    have h5 : ((m : ℤ) : ℝ) = ((n * d : ℤ) : ℝ) := mul_right_cancel₀ h2pi h4
    have h6 : m = n * d := by exact_mod_cast h5
    exact ⟨n, by rw [h6]; ring⟩
  · exact fun h => zfac_dvd (ne_of_gt hd) h

theorem zfac_sum {d : ℤ} (hd : 0 < d) (m : ℤ) :
    ∑ j in Finset.range d.toNat, zfac d (m * j) = if d ∣ m then (d.toNat : ℂ) else 0 := by
  by_cases hdvd : d ∣ m
  · rw [if_pos hdvd]
    have h1 : ∀ j ∈ Finset.range d.toNat, zfac d (m * (j : ℤ)) = 1 :=
      fun j _ => zfac_dvd (ne_of_gt hd) (hdvd.mul_right _)
    rw [Finset.sum_congr rfl h1]
    simp
  · rw [if_neg hdvd]
    have hx : zfac d m ≠ 1 := fun h => hdvd ((zfac_eq_one_iff hd).mp h)
    rw [Finset.sum_congr rfl (fun j _ => zfac_pow d m j), geom_sum_eq hx]
    have hpow : zfac d m ^ d.toNat = 1 := by
      rw [← zfac_pow]
      apply zfac_dvd (ne_of_gt hd)
      have ht : ((d.toNat : ℤ)) = d := Int.toNat_of_nonneg (le_of_lt hd)
      rw [ht]
      exact dvd_mul_left d m
    rw [hpow, sub_self, zero_div]

/-! ## Coset arithmetic for the QFT -/

theorem base_decomp {d : ℤ} (v t i : ℤ) (hi0 : 0 ≤ i) (hid : i < d)
    (h : v - v % d + i = t) : t % d = i ∧ v - v % d = t - t % d := by
  have hb : d * (v / d) = v - v % d := eq_sub_of_add_eq (Int.ediv_add_emod v d)
  have ht : t = i + d * (v / d) := by linarith [h, hb]
  have h1 : t % d = i := by
    rw [ht, Int.add_mul_emod_self_left, Int.emod_eq_of_lt hi0 hid]
  exact ⟨h1, by rw [h1]; linarith [h]⟩

theorem base_add {d : ℤ} (t k : ℤ) (hk0 : 0 ≤ k) (hkd : k < d) :
    (t - t % d + k) % d = k := by
  have hb : d * (t / d) = t - t % d := eq_sub_of_add_eq (Int.ediv_add_emod t d)
  have h1 : t - t % d + k = k + d * (t / d) := by linarith [hb]
  rw [h1, Int.add_mul_emod_self_left, Int.emod_eq_of_lt hk0 hkd]

/-! ## The coherent sum of the QFT expansion -/

theorem den_qft_images {ρ : Type} [DecidableEq ρ] (b : Branch ρ) (d : ℤ) (hd : 2 ≤ d)
    (inv : Bool) (t : ℤ) (r : ρ) :
    den ((List.range d.toNat).map (fun (i : ℕ) =>
      (⟨b.amp * (1 / (Real.sqrt ((d : ℤ) : ℝ) : ℂ)) *
        zfac d ((if inv then -1 else 1) * (b.tgt * (i : ℤ))),
       (b.tgt - b.tgt % d) + (i : ℤ), b.rest⟩ : Branch ρ))) (t, r)
      = (1 / (Real.sqrt ((d : ℤ) : ℝ) : ℂ)) *
        ∑ k in Finset.range d.toNat,
          zfac d ((if inv then -1 else 1) * ((k : ℤ) * (t % d))) *
          (if b.cfg = (t - t % d + (k : ℤ), r) then b.amp else 0) := by
  have hd0 : (0 : ℤ) < d := by omega
  have hm0 : 0 ≤ t % d := Int.emod_nonneg t (ne_of_gt hd0)
  have hmd : t % d < d := Int.emod_lt_of_pos t hd0
  have hv0 : 0 ≤ b.tgt % d := Int.emod_nonneg b.tgt (ne_of_gt hd0)
  have hvd : b.tgt % d < d := Int.emod_lt_of_pos b.tgt hd0
  unfold den
  rw [List.map_map, listSum_range, Finset.mul_sum]
  simp only [Function.comp, Branch.cfg_mk]
  by_cases hr : b.rest = r
  · by_cases hbase : b.tgt - b.tgt % d = t - t % d
    · -- a unique image index on the left, a unique coset offset on the right
      have hothL : ∀ i ∈ Finset.range d.toNat, i ≠ (t % d).toNat →
          (if ((b.tgt - b.tgt % d + (i : ℤ), b.rest) : Cfg ρ) = (t, r) then
            b.amp * (1 / (Real.sqrt ((d : ℤ) : ℝ) : ℂ)) *
              zfac d ((if inv then -1 else 1) * (b.tgt * (i : ℤ)))
          else 0) = 0 := by
        intro i him hi
        have hcne2 : ¬ (((b.tgt - b.tgt % d + (i : ℤ), b.rest) : Cfg ρ) = (t, r)) := by
          intro hc
          have hti : b.tgt - b.tgt % d + (i : ℤ) = t := congrArg Prod.fst hc
          have hb2 := base_decomp b.tgt t (i : ℤ) (by omega)
            (by have := Finset.mem_range.mp him; omega) hti
          exact hi (by omega)
        rw [if_neg hcne2]
      have hothR : ∀ k ∈ Finset.range d.toNat, k ≠ (b.tgt % d).toNat →
          (1 / (Real.sqrt ((d : ℤ) : ℝ) : ℂ)) *
            (zfac d ((if inv then -1 else 1) * ((k : ℤ) * (t % d))) *
              (if b.cfg = (t - t % d + (k : ℤ), r) then b.amp else 0)) = 0 := by
        intro k hkm hk
        have hcne2 : ¬ (b.cfg = (t - t % d + (k : ℤ), r)) := by
          intro hc
          have htg : b.tgt = t - t % d + (k : ℤ) := congrArg Prod.fst hc
          have hkk : b.tgt % d = (k : ℤ) := by
            rw [htg]
            exact base_add t (k : ℤ) (by omega)
              (by have := Finset.mem_range.mp hkm; omega)
          exact hk (by omega)
        rw [if_neg hcne2, mul_zero, mul_zero]
      rw [Finset.sum_eq_single_of_mem (t % d).toNat
        (Finset.mem_range.mpr (by omega)) hothL,
        Finset.sum_eq_single_of_mem (b.tgt % d).toNat
        (Finset.mem_range.mpr (by omega)) hothR]
      have hi0 : ((((t % d).toNat : ℕ) : ℤ)) = t % d := Int.toNat_of_nonneg hm0
      have hk0 : ((((b.tgt % d).toNat : ℕ) : ℤ)) = b.tgt % d := Int.toNat_of_nonneg hv0
      have h1 : b.tgt - b.tgt % d + (((t % d).toNat : ℕ) : ℤ) = t := by
        rw [hi0, hbase]
        exact sub_add_cancel t (t % d)
      have h2 : b.cfg = (t - t % d + (((b.tgt % d).toNat : ℕ) : ℤ), r) := by
        show (b.tgt, b.rest) = _
        rw [hk0, ← hbase, sub_add_cancel, hr]
      rw [if_pos (by rw [h1, hr]), if_pos h2, hi0, hk0]
      have hb : d * (b.tgt / d) = b.tgt - b.tgt % d :=
        eq_sub_of_add_eq (Int.ediv_add_emod b.tgt d)
      have hz : zfac d ((if inv then -1 else 1) * (b.tgt * (t % d)))
          = zfac d ((if inv then -1 else 1) * ((b.tgt % d) * (t % d))) := by
        apply zfac_eq_of_dvd_sub (ne_of_gt hd0)
        refine ⟨(if inv then -1 else 1) * (t % d) * (b.tgt / d), ?_⟩
        linear_combination (-((if inv then (-1 : ℤ) else 1) * (t % d))) * hb
      rw [hz]
      ring
    · -- the branch lies in a different coset: both sides vanish
      have hL : ∀ i ∈ Finset.range d.toNat,
          (if ((b.tgt - b.tgt % d + (i : ℤ), b.rest) : Cfg ρ) = (t, r) then
            b.amp * (1 / (Real.sqrt ((d : ℤ) : ℝ) : ℂ)) *
              zfac d ((if inv then -1 else 1) * (b.tgt * (i : ℤ)))
          else 0) = 0 := by
        intro i hi
        have hcne2 : ¬ (((b.tgt - b.tgt % d + (i : ℤ), b.rest) : Cfg ρ) = (t, r)) := by
          intro hc
          have hti : b.tgt - b.tgt % d + (i : ℤ) = t := congrArg Prod.fst hc
          have hb2 := base_decomp b.tgt t (i : ℤ) (by omega)
            (by have := Finset.mem_range.mp hi; omega) hti
          exact hbase hb2.2
        rw [if_neg hcne2]
      have hRz : ∀ k ∈ Finset.range d.toNat,
          (1 / (Real.sqrt ((d : ℤ) : ℝ) : ℂ)) *
            (zfac d ((if inv then -1 else 1) * ((k : ℤ) * (t % d))) *
              (if b.cfg = (t - t % d + (k : ℤ), r) then b.amp else 0)) = 0 := by
        intro k hk
        have hcne2 : ¬ (b.cfg = (t - t % d + (k : ℤ), r)) := by
          intro hc
          have htg : b.tgt = t - t % d + (k : ℤ) := congrArg Prod.fst hc
          have hkk : b.tgt % d = (k : ℤ) := by
            rw [htg]
            exact base_add t (k : ℤ) (by omega)
              (by have := Finset.mem_range.mp hk; omega)
          exact hbase (by omega)
        rw [if_neg hcne2, mul_zero, mul_zero]
      rw [Finset.sum_eq_zero hL, Finset.sum_eq_zero hRz]
  · -- different remaining registers: both sides vanish
    have hL : ∀ i ∈ Finset.range d.toNat,
        (if ((b.tgt - b.tgt % d + (i : ℤ), b.rest) : Cfg ρ) = (t, r) then
          b.amp * (1 / (Real.sqrt ((d : ℤ) : ℝ) : ℂ)) *
            zfac d ((if inv then -1 else 1) * (b.tgt * (i : ℤ)))
        else 0) = 0 := by
      intro i hi
      rw [if_neg (fun hc => hr (congrArg Prod.snd hc))]
    have hRz : ∀ k ∈ Finset.range d.toNat,
        (1 / (Real.sqrt ((d : ℤ) : ℝ) : ℂ)) *
          (zfac d ((if inv then -1 else 1) * ((k : ℤ) * (t % d))) *
            (if b.cfg = (t - t % d + (k : ℤ), r) then b.amp else 0)) = 0 := by
      intro k hk
      rw [if_neg (fun hc => hr (congrArg Prod.snd hc)), mul_zero, mul_zero]
    rw [Finset.sum_eq_zero hL, Finset.sum_eq_zero hRz]

theorem den_qftExpandAll {ρ : Type} [DecidableEq ρ] (l : List (Branch ρ)) (d : ℤ)
    (hd : 2 ≤ d) (inv : Bool) (t : ℤ) (r : ρ) :
    den (expandWith (fun b =>
      (List.range d.toNat).map (fun (i : ℕ) =>
        (⟨b.amp * (1 / (Real.sqrt ((d : ℤ) : ℝ) : ℂ)) *
          zfac d ((if inv then -1 else 1) * (b.tgt * (i : ℤ))),
         (b.tgt - b.tgt % d) + (i : ℤ), b.rest⟩ : Branch ρ))) l) (t, r)
      = (1 / (Real.sqrt ((d : ℤ) : ℝ) : ℂ)) *
        ∑ k in Finset.range d.toNat,
          zfac d ((if inv then -1 else 1) * ((k : ℤ) * (t % d))) *
          den l (t - t % d + (k : ℤ), r) := by
  induction l with
  | nil => simp [expandWith]
  | cons b bs ih =>
    show den (_ ++ _) (t, r) = _
    rw [den_append, ih, den_qft_images b d hd inv t r,
      Finset.mul_sum, Finset.mul_sum, Finset.mul_sum, ← Finset.sum_add_distrib]
    apply Finset.sum_congr rfl
    intro k hk
    rw [den_cons]
    ring

/-- The coherent sum of the merged QFT state, at an empty control stack:
for every configuration the amplitude is the order-`d` discrete Fourier
transform of the input amplitudes along the coset of `d·ℤ` through the
target value. -/
theorem den_qftMerged {ρ : Type} [DecidableEq ρ] (s : Sim ρ) (d : ℤ) (hd : 2 ≤ d)
    (hctrl : s.controls = []) (inv : Bool) (t : ℤ) (r : ρ) :
    den (mergeInto [] (qftExpand s (fun _ => d) inv)) (t, r)
      = (1 / (Real.sqrt ((d : ℤ) : ℝ) : ℂ)) *
        ∑ k in Finset.range d.toNat,
          zfac d ((if inv then -1 else 1) * ((k : ℤ) * (t % d))) *
          den s.branches (t - t % d + (k : ℤ), r) := by
  rw [den_mergeInto, den_nil, zero_add]
  have hexp : qftExpand s (fun _ => d) inv = expandWith (fun b =>
      (List.range d.toNat).map (fun (i : ℕ) =>
        (⟨b.amp * (1 / (Real.sqrt ((d : ℤ) : ℝ) : ℂ)) *
          zfac d ((if inv then -1 else 1) * (b.tgt * (i : ℤ))),
         (b.tgt - b.tgt % d) + (i : ℤ), b.rest⟩ : Branch ρ))) s.branches := by
    unfold qftExpand
    apply congrArg (fun f => expandWith f s.branches)
    funext b
    have hg : goodB s.controls b = true := by rw [hctrl]; rfl
    rw [if_pos hg]
  rw [hexp]
  exact den_qftExpandAll s.branches d hd inv t r

/-- Fourier inversion for the merged inverse-QFT of the pruned forward-QFT
state: at every configuration, the coherent sum is the original amplitude
divided by the forward prune divisor. -/
theorem den_qft_roundtrip {ρ : Type} [DecidableEq ρ] (s : Sim ρ) (d : ℤ) (hd : 2 ≤ d)
    (hctrl : s.controls = [])
    (hm1 : ∀ b ∈ mergeInto [] (qftExpand s (fun _ => d) false),
      b.amp = 0 ∨ thresh < Complex.abs b.amp)
    (t : ℤ) (r : ρ) :
    den (mergeInto [] (qftExpand (qftRun s (fun _ => d) false) (fun _ => d) true)) (t, r)
      = den s.branches (t, r) /
        ((Real.sqrt (sqAmps (keptL (mergeInto [] (qftExpand s (fun _ => d) false)))) : ℝ) : ℂ) := by
  have hd0 : (0 : ℤ) < d := by omega
  have hw0 : 0 ≤ t % d := Int.emod_nonneg t (ne_of_gt hd0)
  have hwd : t % d < d := Int.emod_lt_of_pos t hd0
  have hctrl1 : (qftRun s (fun _ => d) false).controls = [] := hctrl
  rw [den_qftMerged (qftRun s (fun _ => d) false) d hd hctrl1 true t r]
  have hinner : ∀ j ∈ Finset.range d.toNat,
      zfac d ((if true then -1 else 1) * ((j : ℤ) * (t % d))) *
        den (qftRun s (fun _ => d) false).branches (t - t % d + (j : ℤ), r)
      = zfac d (-1 * ((j : ℤ) * (t % d))) *
          (((1 / (Real.sqrt ((d : ℤ) : ℝ) : ℂ)) *
            ∑ k in Finset.range d.toNat,
              zfac d ((k : ℤ) * (j : ℤ)) * den s.branches (t - t % d + (k : ℤ), r)) /
           ((Real.sqrt (sqAmps (keptL (mergeInto [] (qftExpand s (fun _ => d) false)))) : ℝ) : ℂ)) := by
    intro j hj
    have hj0 : (0 : ℤ) ≤ (j : ℤ) := by omega
    have hjd : ((j : ℤ)) < d := by
      have := Finset.mem_range.mp hj
      omega
    have hbr : (qftRun s (fun _ => d) false).branches
        = prune (mergeInto [] (qftExpand s (fun _ => d) false)) := rfl
    rw [hbr, den_prune hm1, den_qftMerged s d hd hctrl false (t - t % d + (j : ℤ)) r]
    have he1 : (t - t % d + (j : ℤ)) % d = (j : ℤ) := base_add t (j : ℤ) hj0 hjd
    rw [he1, add_sub_cancel_right]
    have hzz : ∀ k ∈ Finset.range d.toNat,
        zfac d ((if false then -1 else 1) * ((k : ℤ) * (j : ℤ))) *
          den s.branches (t - t % d + (k : ℤ), r)
        = zfac d ((k : ℤ) * (j : ℤ)) * den s.branches (t - t % d + (k : ℤ), r) := by
      intro k _
      congr 2
      simp
    rw [Finset.sum_congr rfl hzz]
    rfl
  rw [Finset.sum_congr rfl hinner]
  have hdouble : ∑ j in Finset.range d.toNat,
      zfac d (-1 * ((j : ℤ) * (t % d))) *
        (((1 / (Real.sqrt ((d : ℤ) : ℝ) : ℂ)) *
          ∑ k in Finset.range d.toNat,
            zfac d ((k : ℤ) * (j : ℤ)) * den s.branches (t - t % d + (k : ℤ), r)) /
         ((Real.sqrt (sqAmps (keptL (mergeInto [] (qftExpand s (fun _ => d) false)))) : ℝ) : ℂ))
      = ∑ k in Finset.range d.toNat,
          ∑ j in Finset.range d.toNat,
            (1 / (Real.sqrt ((d : ℤ) : ℝ) : ℂ)) *
              ((Real.sqrt (sqAmps (keptL (mergeInto [] (qftExpand s (fun _ => d) false)))) : ℂ))⁻¹ *
              (den s.branches (t - t % d + (k : ℤ), r) *
                zfac d (((k : ℤ) - t % d) * (j : ℤ))) := by
    rw [Finset.sum_comm]
    apply Finset.sum_congr rfl
    intro j _
    rw [div_eq_mul_inv, Finset.mul_sum, Finset.sum_mul, Finset.mul_sum]
    apply Finset.sum_congr rfl
    intro k _
    have hcomb : zfac d (-1 * ((j : ℤ) * (t % d))) * zfac d ((k : ℤ) * (j : ℤ))
        = zfac d (((k : ℤ) - t % d) * (j : ℤ)) := by
      rw [← zfac_add]
      congr 1
      ring
    rw [← hcomb]
    ring
  rw [hdouble]
  have hcollapse : ∀ k ∈ Finset.range d.toNat,
      ∑ j in Finset.range d.toNat,
        (1 / (Real.sqrt ((d : ℤ) : ℝ) : ℂ)) *
          ((Real.sqrt (sqAmps (keptL (mergeInto [] (qftExpand s (fun _ => d) false)))) : ℂ))⁻¹ *
          (den s.branches (t - t % d + (k : ℤ), r) *
            zfac d (((k : ℤ) - t % d) * (j : ℤ)))
      = (1 / (Real.sqrt ((d : ℤ) : ℝ) : ℂ)) *
          ((Real.sqrt (sqAmps (keptL (mergeInto [] (qftExpand s (fun _ => d) false)))) : ℂ))⁻¹ *
          den s.branches (t - t % d + (k : ℤ), r) *
          (if d ∣ ((k : ℤ) - t % d) then (d.toNat : ℂ) else 0) := by
    intro k _
    have hstep : ∀ j ∈ Finset.range d.toNat,
        (1 / (Real.sqrt ((d : ℤ) : ℝ) : ℂ)) *
          ((Real.sqrt (sqAmps (keptL (mergeInto [] (qftExpand s (fun _ => d) false)))) : ℂ))⁻¹ *
          (den s.branches (t - t % d + (k : ℤ), r) *
            zfac d (((k : ℤ) - t % d) * (j : ℤ)))
        = (1 / (Real.sqrt ((d : ℤ) : ℝ) : ℂ)) *
            ((Real.sqrt (sqAmps (keptL (mergeInto [] (qftExpand s (fun _ => d) false)))) : ℂ))⁻¹ *
            den s.branches (t - t % d + (k : ℤ), r) *
            zfac d (((k : ℤ) - t % d) * (j : ℤ)) := by
      intro j _
      ring
    rw [Finset.sum_congr rfl hstep, ← Finset.mul_sum, zfac_sum hd0 ((k : ℤ) - t % d)]
  rw [Finset.sum_congr rfl hcollapse]
  rw [Finset.sum_eq_single_of_mem (t % d).toNat (Finset.mem_range.mpr (by omega))
    (fun k hkm hk => ?_)]
  · have hto : (((t % d).toNat : ℕ) : ℤ) = t % d := Int.toNat_of_nonneg hw0
    have hdvd : d ∣ ((((t % d).toNat : ℕ) : ℤ) - t % d) := by
      rw [hto, sub_self]
      exact dvd_zero d
    rw [if_pos hdvd, hto, sub_add_cancel]
    have hnd : ((d.toNat : ℕ) : ℂ) = ((d : ℤ) : ℂ) := by
      rw [← Int.cast_natCast, Int.toNat_of_nonneg (le_of_lt hd0)]
    rw [hnd]
    have hsd : ((Real.sqrt ((d : ℤ) : ℝ) : ℝ) : ℂ) * ((Real.sqrt ((d : ℤ) : ℝ) : ℝ) : ℂ)
        = ((d : ℤ) : ℂ) := by
      rw [← Complex.ofReal_mul, Real.mul_self_sqrt (by positivity)]
      norm_cast
    have hdc : ((d : ℤ) : ℂ) ≠ 0 := by
      exact_mod_cast ne_of_gt hd0
    have hsd0 : ((Real.sqrt ((d : ℤ) : ℝ) : ℝ) : ℂ) ≠ 0 := by
      intro h0
      rw [h0, zero_mul] at hsd
      exact hdc hsd.symm
    have hexpand : (1 / (Real.sqrt ((d : ℤ) : ℝ) : ℂ)) *
        ((1 / (Real.sqrt ((d : ℤ) : ℝ) : ℂ)) *
          ((Real.sqrt (sqAmps (keptL (mergeInto [] (qftExpand s (fun _ => d) false)))) : ℂ))⁻¹ *
          den s.branches (t, r) * ((d : ℤ) : ℂ))
        = (((d : ℤ) : ℂ) / (((Real.sqrt ((d : ℤ) : ℝ) : ℝ) : ℂ) * ((Real.sqrt ((d : ℤ) : ℝ) : ℝ) : ℂ))) *
            (den s.branches (t, r) *
              ((Real.sqrt (sqAmps (keptL (mergeInto [] (qftExpand s (fun _ => d) false)))) : ℂ))⁻¹) := by
      ring
    rw [hexpand, hsd, div_self hdc, one_mul, ← div_eq_mul_inv]
  · have hkd : ((k : ℤ)) < d := by
      have := Finset.mem_range.mp hkm
      omega
    have hnd2 : ¬ d ∣ ((k : ℤ) - t % d) := by
      intro hdvd
      rcases hdvd with ⟨c, hc⟩
      have hbound1 : (k : ℤ) - t % d < d := by linarith [hkd, hw0]
      have hbound2 : -d < (k : ℤ) - t % d := by
        have hk0' : (0 : ℤ) ≤ (k : ℤ) := by omega
        linarith [hwd, hk0']
      have hc0 : c = 0 := by
        by_contra hc0
        rcases lt_or_gt_of_ne hc0 with hneg | hpos
        · have hle : d * c ≤ d * (-1) :=
            mul_le_mul_of_nonneg_left (by omega) (by omega)
          have : d * (-1) = -d := by ring
          linarith [hc, hle, hbound2]
        · have hge : d ≤ d * c := le_mul_of_one_le_right (le_of_lt hd0) (by omega)
          linarith [hc, hge, hbound1]
      rw [hc0, mul_zero] at hc
      have hkm2 : ((k : ℕ) : ℤ) = t % d := by linarith [hc]
      have hcast : ((k : ℕ) : ℤ) = (((t % d).toNat : ℕ) : ℤ) := by
        rw [Int.toNat_of_nonneg hw0, hkm2]
      exact hk (by exact_mod_cast hcast)
    rw [if_neg hnd2, mul_zero]


/-! ## Lemmas about the CNOT branch loop -/

theorem cnotGo_error {ρ : Type} [DecidableEq ρ] (ctrls : List (Expr ρ)) (i1 i2 : Expr ρ)
    (l : List (Branch ρ)) (h : ∃ b ∈ l, goodB ctrls b = true ∧ i1 b.cfg = i2 b.cfg) :
    cnotGo ctrls i1 i2 l = .error (.valueErr "Cannot perform CNOT from index to itself.") := by
  induction l with
  | nil => rcases h with ⟨b, hb, _⟩; cases hb
  | cons x xs ih =>
    show (if goodB ctrls x then _ else _) = _
    by_cases hg : goodB ctrls x
    · rw [if_pos hg]
      by_cases he : i1 x.cfg = i2 x.cfg
      · rw [if_pos he]
      · rw [if_neg he]
        have h' : ∃ b ∈ xs, goodB ctrls b = true ∧ i1 b.cfg = i2 b.cfg := by
          rcases h with ⟨b, hb, hbg, hbe⟩
          rcases List.mem_cons.mp hb with h1 | h1
          · subst h1; exact absurd hbe he
          · exact ⟨b, h1, hbg, hbe⟩
        rw [ih h']
        rfl
    · rw [if_neg hg]
      have h' : ∃ b ∈ xs, goodB ctrls b = true ∧ i1 b.cfg = i2 b.cfg := by
        rcases h with ⟨b, hb, hbg, hbe⟩
        rcases List.mem_cons.mp hb with h1 | h1
        · subst h1; exact absurd hbg (by simpa using hg)
        · exact ⟨b, h1, hbg, hbe⟩
      rw [ih h']
      rfl

theorem cnotGo_ok {ρ : Type} [DecidableEq ρ] (ctrls : List (Expr ρ)) (i1 i2 : Expr ρ)
    (l : List (Branch ρ)) (h : ∀ b ∈ l, goodB ctrls b = true → i1 b.cfg ≠ i2 b.cfg) :
    cnotGo ctrls i1 i2 l = .ok (l.map (fun b =>
      if goodB ctrls b then cnotFlip b (i1 b.cfg).toNat (i2 b.cfg).toNat else b)) := by
  induction l with
  | nil => rfl
  | cons x xs ih =>
    have ih' := ih (fun b hb => h b (List.mem_cons_of_mem _ hb))
    show (if goodB ctrls x then _ else _) = _
    rw [List.map_cons]
    by_cases hg : goodB ctrls x
    · rw [if_pos hg, if_neg (h x (List.mem_cons_self x xs) hg), ih', if_pos hg]
      rfl
    · rw [if_neg hg, ih', if_neg hg]
      rfl

/-! ## Lemmas about active and frozen branches -/

theorem goodB_iff {ρ : Type} (ctrls : List (Expr ρ)) (b : Branch ρ) :
    goodB ctrls b = true ↔ ∀ ctrl ∈ ctrls, ctrl b.cfg ≠ 0 := by
  simp [goodB]

theorem goodB_false {ρ : Type} {ctrls : List (Expr ρ)} {b : Branch ρ} :
    goodB ctrls b = false ↔ ∃ ctrl ∈ ctrls, ctrl b.cfg = 0 := by
  rw [← Bool.not_eq_true, goodB_iff]
  push_neg
  simp

/-- With controls not referencing the target (the situation `assert_mutable`
enforces, rendered semantically), the image of an active branch - which can
differ from it only in the target register - never has the configuration of
a frozen branch. -/
theorem frozen_cfg_ne {ρ : Type} {ctrls : List (Expr ρ)}
    (hc : ∀ ctrl ∈ ctrls, ∀ t t' : ℤ, ∀ r : ρ, ctrl (t, r) = ctrl (t', r))
    {a b : Branch ρ} (hga : goodB ctrls a = true) (hgb : goodB ctrls b = false)
    (t' : ℤ) : ((t', a.rest) : Cfg ρ) ≠ b.cfg := by
  intro hEq
  rcases goodB_false.mp hgb with ⟨c0, hc0m, hc0⟩
  have h1 : c0 (t', a.rest) = c0 (a.tgt, a.rest) := hc c0 hc0m t' a.tgt a.rest
  have h2 : c0 a.cfg ≠ 0 := (goodB_iff ctrls a).mp hga c0 hc0m
  rw [hEq, hc0] at h1
  exact h2 h1.symm

theorem Dcfg_prune {ρ : Type} [DecidableEq ρ] {l : List (Branch ρ)} (h : Dcfg l) :
    Dcfg (prune l) := by
  rw [prune_eq]
  exact Dcfg_map_scale _ _ (Dcfg_filter _ _ h)

theorem Dcfg_expandWith {ρ : Type} [DecidableEq ρ] {f : Branch ρ → List (Branch ρ)}
    {l : List (Branch ρ)}
    (h1 : ∀ b ∈ l, Dcfg (f b))
    (h2 : l.Pairwise (fun a b => ∀ x ∈ f a, ∀ y ∈ f b, x.cfg ≠ y.cfg)) :
    Dcfg (expandWith f l) := by
  induction l with
  | nil => exact List.Pairwise.nil
  | cons b bs ih =>
    rcases List.pairwise_cons.mp h2 with ⟨hb, hbs⟩
    show List.Pairwise _ (f b ++ expandWith f bs)
    rw [List.pairwise_append]
    refine ⟨h1 b (List.mem_cons_self b bs),
      ih (fun x hx => h1 x (List.mem_cons_of_mem _ hx)) hbs, ?_⟩
    intro x hx y hy
    rcases mem_expandWith.mp hy with ⟨c, hcm, hyc⟩
    exact hb c hcm x hx y hyc

/-- A frozen branch passes through an expansion-with-merge unchanged at the
level of the coherent sum: its configuration receives exactly its own
amplitude. -/
theorem den_expandWith_frozen {ρ : Type} [DecidableEq ρ] {f : Branch ρ → List (Branch ρ)}
    {l : List (Branch ρ)} {b : Branch ρ}
    (hb : b ∈ l) (hdist : Dcfg l) (hfb : f b = [b])
    (hother : ∀ a ∈ l, a.cfg ≠ b.cfg → ∀ x ∈ f a, x.cfg ≠ b.cfg) :
    den (expandWith f l) b.cfg = b.amp := by
  induction l with
  | nil => cases hb
  | cons a t ih =>
    rcases List.pairwise_cons.mp hdist with ⟨ha, ht⟩
    show den (f a ++ expandWith f t) b.cfg = b.amp
    rw [den_append]
    rcases List.mem_cons.mp hb with h1 | h1
    · subst h1
      rw [hfb, den_cons, den_nil, if_pos rfl, add_zero]
      have hz : ∀ x ∈ expandWith f t, x.cfg ≠ b.cfg := by
        intro x hx
        rcases mem_expandWith.mp hx with ⟨c, hcm, hxc⟩
        exact hother c (List.mem_cons_of_mem _ hcm) (Ne.symm (ha c hcm)) x hxc
      rw [den_eq_zero_of_forall hz, add_zero]
    · have hac : a.cfg ≠ b.cfg := ha b h1
      have h0 : ∀ x ∈ f a, x.cfg ≠ b.cfg :=
        hother a (List.mem_cons_self a t) hac
      rw [den_eq_zero_of_forall h0, zero_add]
      exact ih h1 ht (fun a' ha' hcc => hother a' (List.mem_cons_of_mem _ ha') hcc)

/-- A frozen branch is a member of the merged list, unchanged, whenever its
own amplitude is nonzero and its configuration is hit by no other image. -/
theorem mem_merged_of_frozen {ρ : Type} [DecidableEq ρ] {f : Branch ρ → List (Branch ρ)}
    {l : List (Branch ρ)} {b : Branch ρ}
    (hb : b ∈ l) (hdist : Dcfg l) (hfb : f b = [b])
    (hother : ∀ a ∈ l, a.cfg ≠ b.cfg → ∀ x ∈ f a, x.cfg ≠ b.cfg)
    (hnz : b.amp ≠ 0) :
    b ∈ mergeInto [] (expandWith f l) := by
  have hden : den (mergeInto [] (expandWith f l)) b.cfg = b.amp := by
    rw [den_mergeInto, den_nil, zero_add]
    exact den_expandWith_frozen hb hdist hfb hother
  have hd : Dcfg (mergeInto [] (expandWith f l)) :=
    Dcfg_mergeInto [] _ List.Pairwise.nil
  rcases exists_mem_of_den_ne (by rw [hden]; exact hnz) with ⟨b', hb', hcfg⟩
  have hamp : b'.amp = b.amp := by
    rw [← hden, ← hcfg]
    exact (den_eq_amp_of_mem hd hb').symm
  have : b' = b :=
    Branch.ext hamp (congrArg Prod.fst hcfg) (congrArg Prod.snd hcfg)
  rw [← this]
  exact hb'

theorem cnotGo_frozen_mem {ρ : Type} [DecidableEq ρ] {ctrls : List (Expr ρ)}
    {i1 i2 : Expr ρ} {l out : List (Branch ρ)}
    (h : cnotGo ctrls i1 i2 l = .ok out) {b : Branch ρ}
    (hb : b ∈ l) (hg : goodB ctrls b = false) : b ∈ out := by
  induction l generalizing out with
  | nil => cases hb
  | cons x xs ih =>
    have hshow : cnotGo ctrls i1 i2 (x :: xs)
        = if goodB ctrls x then
            (if i1 x.cfg = i2 x.cfg then
              .error (.valueErr "Cannot perform CNOT from index to itself.")
            else (cnotGo ctrls i1 i2 xs).map
              (fun t => cnotFlip x (i1 x.cfg).toNat (i2 x.cfg).toNat :: t))
          else (cnotGo ctrls i1 i2 xs).map (fun t => x :: t) := rfl
    rw [hshow] at h
    by_cases hgx : goodB ctrls x
    · rw [if_pos hgx] at h
      by_cases he : i1 x.cfg = i2 x.cfg
      · rw [if_pos he] at h; cases h
      · rw [if_neg he] at h
        cases hrec : cnotGo ctrls i1 i2 xs with
        | error e => rw [hrec] at h; cases h
        | ok t =>
          rw [hrec] at h
          have hout : out = cnotFlip x (i1 x.cfg).toNat (i2 x.cfg).toNat :: t :=
            (Except.ok.inj h).symm
          rcases List.mem_cons.mp hb with h1 | h1
          · subst h1
            exact absurd hgx (by rw [hg]; exact Bool.false_ne_true)
          · rw [hout]
            exact List.mem_cons_of_mem _ (ih hrec h1)
    · rw [if_neg hgx] at h
      cases hrec : cnotGo ctrls i1 i2 xs with
      | error e => rw [hrec] at h; cases h
      | ok t =>
        rw [hrec] at h
        have hout : out = x :: t := (Except.ok.inj h).symm
        rcases List.mem_cons.mp hb with h1 | h1
        · subst h1
          rw [hout]
          exact List.mem_cons_self _ _
        · rw [hout]
          exact List.mem_cons_of_mem _ (ih hrec h1)

/-! ## Claim theorems -/

/-- Claim C1 (code-bug evidence).  On the failing input - the fresh
single-branch state `s0` with the target register at 0, and `val` the
constant expression 5 - `init` followed by `init_inv` succeeds, but the
final state still holds 5 in the target register: the zeroing in the
source's `init_inv` Expression branch is dead code sitting after the raise,
so the round trip does not restore the initial state and the register is
not zeroed on success. -/
theorem init_init_inv_expr_roundtrip_bug :
    (init_expr s0 (fun _ => 5) false false).bind
        (fun s1 => init_inv_expr s1 (fun _ => 5) false)
      = .ok ⟨[⟨1, 5, ()⟩], [], [], []⟩ ∧
    (⟨[⟨1, 5, ()⟩], [], [], []⟩ : Sim Unit) ≠ s0 := by
  constructor
  · rfl
  · intro h
    have h5 : (5 : ℤ) = 0 :=
      congrArg (fun s : Sim Unit => (s.branches.headD ⟨0, 0, ()⟩).tgt) h
    exact absurd h5 (by decide)

/-- Claim C9: `had` raises the structural self-reference error whenever the
bit expression references the target key (modelled by the `bitUsesKey` flag
set to `true`), before touching any branch, on every simulator state - in
particular also on states with no active branch. -/
theorem had_self_bit_guard {ρ : Type} [DecidableEq ρ] (s : Sim ρ) (bit : Expr ρ) :
    had s bit false true
      = .error (.syntaxErr "Cannot hadamard variable in bit depending on itself.") := rfl

/-- Claim C7 (counterexample): with equal constant index expressions on the
active one-branch state `s0`, `cnot` raises the semantic `ValueError` kind -
not a structural (`SyntaxError`) error as the claim asserts. -/
theorem cnot_equal_indices_error_kind :
    cnot s0 (fun _ => 0) (fun _ => 0) false false
      = .error (.valueErr "Cannot perform CNOT from index to itself.") := rfl

/-- Claim C7 (amended): `cnot` raises a semantic `ValueError` as soon as some
active branch evaluates the two index expressions to the same value, and
when every active branch evaluates them differently it succeeds, flipping
bit `j` of the target exactly on the active branches whose bit `i` is 1 and
passing frozen branches through unchanged. -/
theorem cnot_rejects_equal_indices {ρ : Type} [DecidableEq ρ] (s : Sim ρ)
    (i1 i2 : Expr ρ) :
    ((∃ b ∈ s.branches, goodB s.controls b = true ∧ i1 b.cfg = i2 b.cfg) →
      cnot s i1 i2 false false
        = .error (.valueErr "Cannot perform CNOT from index to itself.")) ∧
    ((∀ b ∈ s.branches, goodB s.controls b = true → i1 b.cfg ≠ i2 b.cfg) →
      cnot s i1 i2 false false
        = .ok { s with branches := s.branches.map (fun b =>
            if goodB s.controls b then cnotFlip b (i1 b.cfg).toNat (i2 b.cfg).toNat
            else b) }) := by
  have hc : cnot s i1 i2 false false
      = (cnotGo s.controls i1 i2 s.branches).map (fun l => { s with branches := l }) := rfl
  constructor
  · intro h
    rw [hc, cnotGo_error s.controls i1 i2 s.branches h]
    rfl
  · intro h
    rw [hc, cnotGo_ok s.controls i1 i2 s.branches h]
    rfl

/-- Claim C7 (witness): applying the amended theorem on the concrete state
`s0` with distinct constant indices 0 and 1. -/
theorem cnot_rejects_equal_indices_witness :
    cnot s0 (fun _ => 0) (fun _ => 1) false false
      = .ok { s0 with branches := s0.branches.map (fun b =>
          if goodB s0.controls b then cnotFlip b 0 1 else b) } :=
  (cnot_rejects_equal_indices s0 (fun _ => 0) (fun _ => 1)).2
    (by intro b _ _; decide)

/-- Claim C8 (counterexample): a branch whose amplitude magnitude equals the
threshold `1e-10` exactly is removed by `prune`, not kept: the source keeps
only branches with `|amp| > thresh`, strictly. -/
theorem prune_drops_boundary_amp : prune pruneCex = [⟨1, 0, ()⟩] := by
  have h1 : thresh < Complex.abs (1 : ℂ) := by
    rw [map_one]; unfold thresh; norm_num
  have hth : (0 : ℝ) ≤ thresh := le_of_lt thresh_pos
  have h2 : ¬ thresh < Complex.abs ((thresh : ℝ) : ℂ) := by
    rw [Complex.abs_ofReal, abs_of_nonneg hth]
    exact lt_irrefl _
  have hkept : keptL pruneCex = [⟨1, 0, ()⟩] := by
    unfold pruneCex
    rw [keptL_cons, if_pos h1, keptL_cons, if_neg h2]
    rfl
  have hsq : sqAmps [(⟨1, 0, ()⟩ : Branch Unit)] = 1 := by
    rw [sqAmps_cons, sqAmps_nil, map_one]
    norm_num
  rw [prune_eq, hkept, hsq, Real.sqrt_one, List.map_cons, List.map_nil]
  norm_num

/-- Claim C8 (amended): `prune` keeps exactly the branches with
`|amp| > thresh` strictly (a branch at exactly the threshold is removed),
divides each kept amplitude by the norm of the kept set, and - whenever some
branch survives - leaves a state of norm 1. -/
theorem prune_spec {ρ : Type} (l : List (Branch ρ))
    (hex : ∃ b ∈ l, thresh < Complex.abs b.amp) :
    (∀ b : Branch ρ, b ∈ keptL l ↔ b ∈ l ∧ thresh < Complex.abs b.amp) ∧
    prune l = (keptL l).map
      (fun b => ⟨b.amp / (Real.sqrt (sqAmps (keptL l)) : ℂ), b.tgt, b.rest⟩) ∧
    sqAmps (prune l) = 1 := by
  refine ⟨fun b => mem_keptL, prune_eq l, ?_⟩
  have hpos : 0 < sqAmps (keptL l) := by
    rcases hex with ⟨b, hb, hbt⟩
    have hbk : b ∈ keptL l := mem_keptL.mpr ⟨hb, hbt⟩
    have hbz : b.amp ≠ 0 := by
      intro h0
      rw [h0, map_zero] at hbt
      exact absurd hbt (not_lt.mpr (le_of_lt thresh_pos))
    exact sqAmps_pos_of_mem hbk hbz
  rw [prune_eq, sqAmps_map_scale _ _ (Real.sqrt_nonneg _), Real.sq_sqrt (le_of_lt hpos),
    div_self (ne_of_gt hpos)]

/-- Claim C8 (witness): applying the amended theorem on the concrete
boundary state `pruneCex`, whose first branch has amplitude 1. -/
theorem prune_spec_witness : sqAmps (prune pruneCex) = 1 :=
  (prune_spec pruneCex ⟨⟨1, 0, ()⟩, by simp [pruneCex], by
    rw [map_one]; unfold thresh; norm_num⟩).2.2

/-- Claim C6 (counterexample): with a `q_while` body scope open (nonempty
queue stack, as pushed by `whileEnter`) but no `inv` scope, `postselect`
executes normally and returns, instead of raising the structural error the
claim asserts for every open reversible scope. -/
theorem postselect_in_while_scope :
    postselect sWhile (fun _ => 1) = .ok (1, ⟨[⟨1, 0, ()⟩], [], [], [[]]⟩) := by
  have hkept : (sWhile.branches.filter (fun b => (fun _ : Cfg Unit => (1 : ℤ)) b.cfg != 0))
      = [⟨1, 0, ()⟩] := by
    simp [sWhile, whileEnter]
  have hsq : sqAmps [(⟨1, 0, ()⟩ : Branch Unit)] = 1 := by
    rw [sqAmps_cons, sqAmps_nil, map_one]; norm_num
  show postselectGo sWhile (fun _ => 1) = _
  unfold postselectGo
  simp only [hkept, hsq]
  norm_num [sWhile, whileEnter, Real.sqrt_one]

/-- Claim C6 (amended): the three measurement operations raise the
structural top-level error exactly when the mode stack is nonempty; only
the `inv` scope pushes a mode (so `q_while` and `garbage` scopes, which
only open queues, do not block measurement), and with an empty mode stack
each operation proceeds with its normal body. -/
theorem measurement_mode_guard {ρ : Type} [DecidableEq ρ] (s : Sim ρ) (e val : Expr ρ)
    (r : ℝ) (post : Option Bool) (fl fu fk : Bool) :
    (s.modeStack ≠ [] →
      measure s e r = .error (.syntaxErr "Can only measure at top-level.") ∧
      postselect s e = .error (.syntaxErr "Can only measure at top-level.") ∧
      measure_state s val fl fu fk post r
        = .error (.syntaxErr "Can only measure at top-level.")) ∧
    (s.modeStack = [] →
      measure s e r = measureGo s e r ∧
      postselect s e = postselectGo s e ∧
      measure_state s val fl fu fk post r = msGo s val fl fu fk post r) ∧
    measure (invEnter s) e r = .error (.syntaxErr "Can only measure at top-level.") := by
  refine ⟨fun h => ?_, fun h => ?_, ?_⟩
  · have he : s.modeStack.isEmpty = false := by
      cases hh : s.modeStack with
      | nil => exact absurd hh h
      | cons a t => rfl
    exact ⟨by unfold measure; rw [he]; rfl,
      by unfold postselect; rw [he]; rfl,
      by unfold measure_state; rw [he]; rfl⟩
  · have he : s.modeStack.isEmpty = true := by rw [h]; rfl
    exact ⟨by unfold measure; rw [he]; rfl,
      by unfold postselect; rw [he]; rfl,
      by unfold measure_state; rw [he]; rfl⟩
  · rfl

/-- Claim C6 (witness): applying the amended theorem on a concrete state
with an open `inv` mode. -/
theorem measurement_mode_guard_witness :
    measure (⟨[⟨1, 0, ()⟩], [], ["inv"], []⟩ : Sim Unit) (fun _ => 0) 0
      = .error (.syntaxErr "Can only measure at top-level.") ∧
    postselect (⟨[⟨1, 0, ()⟩], [], ["inv"], []⟩ : Sim Unit) (fun _ => 0)
      = .error (.syntaxErr "Can only measure at top-level.") ∧
    measure_state (⟨[⟨1, 0, ()⟩], [], ["inv"], []⟩ : Sim Unit) (fun _ => 0)
        false false false none 0
      = .error (.syntaxErr "Can only measure at top-level.") :=
  (measurement_mode_guard (⟨[⟨1, 0, ()⟩], [], ["inv"], []⟩ : Sim Unit)
    (fun _ => 0) (fun _ => 0) 0 none false false false).1 (by simp)

/-- Claim C10: at top level, with at least one branch satisfying the
postselected expression, `postselect` returns the total pre-normalization
probability of the kept branches (the sum of their squared amplitude
magnitudes before renormalization) and renormalizes by exactly its square
root. -/
theorem postselect_prob_spec {ρ : Type} (s : Sim ρ) (e : Expr ρ)
    (hm : s.modeStack = []) (hex : ∃ b ∈ s.branches, e b.cfg ≠ 0) :
    postselect s e = .ok (sqAmps (s.branches.filter (fun b => e b.cfg != 0)),
      { s with branches := renormBy (s.branches.filter (fun b => e b.cfg != 0)) (sqAmps (s.branches.filter (fun b => e b.cfg != 0))) }) := by
  have he : s.modeStack.isEmpty = true := by rw [hm]; rfl
  have hne : (s.branches.filter (fun b => e b.cfg != 0)).isEmpty = false := by
    rcases hex with ⟨b, hb, hbe⟩
    have hmem : b ∈ s.branches.filter (fun b => e b.cfg != 0) := by
      rw [List.mem_filter]
      exact ⟨hb, by simpa using hbe⟩
    cases hh : s.branches.filter (fun b => e b.cfg != 0) with
    | nil => rw [hh] at hmem; cases hmem
    | cons x xs => rfl
  unfold postselect
  rw [he]
  show postselectGo s e = _
  unfold postselectGo
  simp only [hne, Bool.false_eq_true, if_false]
  rfl

/-- Claim C10 (witness): applying the theorem on the concrete fresh state
`s0` with the constant expression 1. -/
theorem postselect_prob_spec_witness :
    postselect s0 (fun _ => 1) = .ok (sqAmps (s0.branches.filter (fun b => (fun _ : Cfg Unit => (1 : ℤ)) b.cfg != 0)),
      { s0 with branches := renormBy (s0.branches.filter (fun b => (fun _ : Cfg Unit => (1 : ℤ)) b.cfg != 0)) (sqAmps (s0.branches.filter (fun b => (fun _ : Cfg Unit => (1 : ℤ)) b.cfg != 0))) }) :=
  postselect_prob_spec s0 (fun _ => 1) rfl ⟨⟨1, 0, ()⟩, by simp [s0], by decide⟩

/-- Claim C3: QFT involution.  On a top-level state (empty control stack)
satisfying the global invariants (pairwise distinct branches with
above-threshold amplitudes, unit norm), for every integer `d ≥ 2` and
arbitrary (also negative) register values, `qft` followed by `qft_inv`
succeeds and returns the initial state up to branch reordering, provided no
pruning loss occurs in between (every merged pre-prune amplitude is zero or
above the threshold, and some forward amplitude survives) - the regime the
claim's amplitude tolerance refers to. -/
theorem qft_involution {ρ : Type} [DecidableEq ρ] (s : Sim ρ) (d : ℤ) (hd : 2 ≤ d)
    (hctrl : s.controls = [])
    (hdist : Dcfg s.branches)
    (hnz : ∀ b ∈ s.branches, thresh < Complex.abs b.amp)
    (hnorm : sqAmps s.branches = 1)
    (hm1 : ∀ b ∈ mergeInto [] (qftExpand s (fun _ => d) false),
      b.amp = 0 ∨ thresh < Complex.abs b.amp)
    (hex1 : ∃ b ∈ mergeInto [] (qftExpand s (fun _ => d) false),
      thresh < Complex.abs b.amp)
    (hm2 : ∀ b ∈ mergeInto [] (qftExpand (qftRun s (fun _ => d) false) (fun _ => d) true),
      b.amp = 0 ∨ thresh < Complex.abs b.amp) :
    qft s (fun _ => d) false false false = .ok (qftRun s (fun _ => d) false) ∧
    qft_inv (qftRun s (fun _ => d) false) (fun _ => d) false false false
      = .ok (qftRun (qftRun s (fun _ => d) false) (fun _ => d) true) ∧
    (qftRun (qftRun s (fun _ => d) false) (fun _ => d) true).branches.Perm s.branches ∧
    (qftRun (qftRun s (fun _ => d) false) (fun _ => d) true).controls = s.controls ∧
    (qftRun (qftRun s (fun _ => d) false) (fun _ => d) true).modeStack = s.modeStack ∧
    (qftRun (qftRun s (fun _ => d) false) (fun _ => d) true).queueStack = s.queueStack := by
  have hbad : ∀ σ : Sim ρ, qftBad σ (fun _ => d) = false := by
    intro σ
    unfold qftBad
    rw [List.any_eq_false]
    intro b _
    simp only [Bool.and_eq_true, decide_eq_true_eq, not_and]
    intro _
    omega
  have hq1 : qft s (fun _ => d) false false false = .ok (qftRun s (fun _ => d) false) := by
    unfold qft
    rw [hbad s]
    rfl
  have hq2 : qft_inv (qftRun s (fun _ => d) false) (fun _ => d) false false false
      = .ok (qftRun (qftRun s (fun _ => d) false) (fun _ => d) true) := by
    show qft (qftRun s (fun _ => d) false) (fun _ => d) true false false = _
    unfold qft
    rw [hbad _]
    rfl
  refine ⟨hq1, hq2, ?_, rfl, rfl, rfl⟩
  -- the forward prune divisor is positive
  rcases hex1 with ⟨b1, hb1, hb1t⟩
  have hb1z : b1.amp ≠ 0 := by
    intro h0
    rw [h0, map_zero] at hb1t
    exact absurd hb1t (not_lt.mpr (le_of_lt thresh_pos))
  have hsqpos : 0 < sqAmps (keptL (mergeInto [] (qftExpand s (fun _ => d) false))) :=
    sqAmps_pos_of_mem (mem_keptL.mpr ⟨hb1, hb1t⟩) hb1z
  have hnu1pos : 0 < Real.sqrt (sqAmps (keptL (mergeInto [] (qftExpand s (fun _ => d) false)))) :=
    Real.sqrt_pos.mpr hsqpos
  have hnu1c : ((Real.sqrt (sqAmps (keptL (mergeInto [] (qftExpand s (fun _ => d) false)))) : ℝ) : ℂ) ≠ 0 := by
    exact_mod_cast ne_of_gt hnu1pos
  -- the inverse-merged coherent sum is the scaled input
  have hdenm2 : ∀ (t : ℤ) (r : ρ),
      den (mergeInto [] (qftExpand (qftRun s (fun _ => d) false) (fun _ => d) true)) (t, r)
        = den s.branches (t, r) /
          ((Real.sqrt (sqAmps (keptL (mergeInto [] (qftExpand s (fun _ => d) false)))) : ℝ) : ℂ) :=
    den_qft_roundtrip s d hd hctrl hm1
  -- the kept inverse-merged branches are a permutation of the scaled input
  have hdk2 : Dcfg (keptL (mergeInto [] (qftExpand (qftRun s (fun _ => d) false) (fun _ => d) true))) :=
    Dcfg_filter _ _ (Dcfg_mergeInto [] _ List.Pairwise.nil)
  have hdsc : Dcfg (s.branches.map (fun b => (⟨b.amp /
      ((Real.sqrt (sqAmps (keptL (mergeInto [] (qftExpand s (fun _ => d) false)))) : ℝ) : ℂ),
      b.tgt, b.rest⟩ : Branch ρ))) :=
    Dcfg_map_scale _ _ hdist
  have hzk2 : ∀ b ∈ keptL (mergeInto [] (qftExpand (qftRun s (fun _ => d) false) (fun _ => d) true)),
      b.amp ≠ 0 := by
    intro b hb
    rcases mem_keptL.mp hb with ⟨_, hbt⟩
    intro h0
    rw [h0, map_zero] at hbt
    exact absurd hbt (not_lt.mpr (le_of_lt thresh_pos))
  have hzsc : ∀ b ∈ s.branches.map (fun b => (⟨b.amp /
      ((Real.sqrt (sqAmps (keptL (mergeInto [] (qftExpand s (fun _ => d) false)))) : ℝ) : ℂ),
      b.tgt, b.rest⟩ : Branch ρ)), b.amp ≠ 0 := by
    intro b hb
    rcases List.mem_map.mp hb with ⟨a, ha, rfl⟩
    have haz : a.amp ≠ 0 := by
      intro h0
      have := hnz a ha
      rw [h0, map_zero] at this
      exact absurd this (not_lt.mpr (le_of_lt thresh_pos))
    exact div_ne_zero haz hnu1c
  have hperm0 : (keptL (mergeInto [] (qftExpand (qftRun s (fun _ => d) false) (fun _ => d) true))).Perm
      (s.branches.map (fun b => (⟨b.amp /
        ((Real.sqrt (sqAmps (keptL (mergeInto [] (qftExpand s (fun _ => d) false)))) : ℝ) : ℂ),
        b.tgt, b.rest⟩ : Branch ρ))) := by
    apply perm_of_den_eq hdk2 hdsc hzk2 hzsc
    intro c
    obtain ⟨t, r⟩ := c
    rw [den_keptL hm2, hdenm2 t r, den_map_scale]
  -- hence the inverse prune divisor is the inverse of the forward one
  have hsq2 : sqAmps (keptL (mergeInto [] (qftExpand (qftRun s (fun _ => d) false) (fun _ => d) true)))
      = 1 / (Real.sqrt (sqAmps (keptL (mergeInto [] (qftExpand s (fun _ => d) false))))) ^ 2 := by
    rw [sqAmps_perm hperm0, sqAmps_map_scale _ _ (Real.sqrt_nonneg _), hnorm]
  have hnu2 : Real.sqrt (sqAmps (keptL (mergeInto [] (qftExpand (qftRun s (fun _ => d) false) (fun _ => d) true))))
      = 1 / Real.sqrt (sqAmps (keptL (mergeInto [] (qftExpand s (fun _ => d) false)))) := by
    rw [hsq2, one_div, Real.sqrt_inv, Real.sqrt_sq (le_of_lt hnu1pos), one_div]
  -- the final state has exactly the original coherent sums
  have hfinal : ∀ c : Cfg ρ,
      den (qftRun (qftRun s (fun _ => d) false) (fun _ => d) true).branches c
        = den s.branches c := by
    intro c
    obtain ⟨t, r⟩ := c
    show den (prune (mergeInto [] (qftExpand (qftRun s (fun _ => d) false) (fun _ => d) true))) (t, r) = _
    rw [den_prune hm2, hdenm2 t r, hnu2]
    rw [Complex.ofReal_div, Complex.ofReal_one]
    field_simp
  -- and is pairwise distinct with nonzero amplitudes
  have hdp2 : Dcfg (qftRun (qftRun s (fun _ => d) false) (fun _ => d) true).branches :=
    Dcfg_prune (Dcfg_mergeInto [] _ List.Pairwise.nil)
  have hzp2 : ∀ b ∈ (qftRun (qftRun s (fun _ => d) false) (fun _ => d) true).branches,
      b.amp ≠ 0 := by
    intro b hb
    have hb' : b ∈ prune (mergeInto [] (qftExpand (qftRun s (fun _ => d) false) (fun _ => d) true)) := hb
    rw [prune_eq] at hb'
    rcases List.mem_map.mp hb' with ⟨a, ha, rfl⟩
    have haz : a.amp ≠ 0 := hzk2 a ha
    have hnu2c : ((Real.sqrt (sqAmps (keptL (mergeInto [] (qftExpand (qftRun s (fun _ => d) false) (fun _ => d) true)))) : ℝ) : ℂ) ≠ 0 := by
      rw [hnu2]
      push_cast
      exact one_div_ne_zero hnu1c
    exact div_ne_zero haz hnu2c
  exact perm_of_den_eq hdp2 hdist hzp2
    (fun b hb => by
      intro h0
      have := hnz b hb
      rw [h0, map_zero] at this
      exact absurd this (not_lt.mpr (le_of_lt thresh_pos)))
    hfinal

/-- Witness for the QFT involution: the single-branch state `s0` with
modulus 2; all invariant hypotheses hold and are discharged concretely. -/
theorem qft_involution_witness :
    (2:ℤ) ≤ 2 ∧
    qft s0 (fun _ => 2) false false false = .ok (qftRun s0 (fun _ => 2) false) ∧
    (qftRun (qftRun s0 (fun _ => 2) false) (fun _ => 2) true).branches.Perm s0.branches := by
  have hdq : (2:ℤ) ≤ 2 := le_refl 2
  have hs2pos : (0:ℝ) < Real.sqrt ((2:ℤ) : ℝ) := Real.sqrt_pos.mpr (by norm_num)
  have hs2le : Real.sqrt ((2:ℤ) : ℝ) ≤ 2 := by
    rw [show ((2:ℤ) : ℝ) = 2 by norm_num]
    calc Real.sqrt 2 ≤ Real.sqrt 4 := Real.sqrt_le_sqrt (by norm_num)
    _ = 2 := by rw [show (4:ℝ) = 2^2 by norm_num, Real.sqrt_sq (by norm_num : (0:ℝ) ≤ 2)]
  have hth1 : thresh < 1 := by unfold thresh; norm_num
  have h12 : (1:ℝ)/2 ≤ 1 / Real.sqrt ((2:ℤ) : ℝ) :=
    one_div_le_one_div_of_le hs2pos hs2le
  have hth : thresh < 1 / Real.sqrt ((2:ℤ) : ℝ) :=
    lt_of_lt_of_le (by unfold thresh; norm_num) h12
  have hz0 : zfac 2 0 = 1 := by simp [zfac]
  have he1 : mergeInto [] (qftExpand s0 (fun _ => 2) false)
      = [⟨1 * (1 / (Real.sqrt ((2:ℤ) : ℝ) : ℂ)) * zfac 2 0, 0, ()⟩,
         ⟨1 * (1 / (Real.sqrt ((2:ℤ) : ℝ) : ℂ)) * zfac 2 0, 1, ()⟩] := rfl
  have hampval : Complex.abs (1 * (1 / (Real.sqrt ((2:ℤ) : ℝ) : ℂ)) * zfac 2 0)
      = 1 / Real.sqrt ((2:ℤ) : ℝ) := by
    rw [hz0, mul_one, one_mul, map_div₀, map_one, Complex.abs_ofReal,
      abs_of_pos hs2pos]
  have hca : thresh < Complex.abs (1 * (1 / (Real.sqrt ((2:ℤ) : ℝ) : ℂ)) * zfac 2 0) := by
    rw [hampval]; exact hth
  have hm1 : ∀ b ∈ mergeInto [] (qftExpand s0 (fun _ => 2) false),
      b.amp = 0 ∨ thresh < Complex.abs b.amp := by
    rw [he1]
    intro b hb
    rcases List.mem_cons.mp hb with rfl | hb2
    · exact Or.inr hca
    rcases List.mem_cons.mp hb2 with rfl | hb3
    · exact Or.inr hca
    cases hb3
  have hex1 : ∃ b ∈ mergeInto [] (qftExpand s0 (fun _ => 2) false),
      thresh < Complex.abs b.amp := by
    refine ⟨⟨1 * (1 / (Real.sqrt ((2:ℤ) : ℝ) : ℂ)) * zfac 2 0, 0, ()⟩, ?_, hca⟩
    rw [he1]
    exact List.mem_cons_self _ _
  have hkept1 : keptL (mergeInto [] (qftExpand s0 (fun _ => 2) false))
      = [⟨1 * (1 / (Real.sqrt ((2:ℤ) : ℝ) : ℂ)) * zfac 2 0, 0, ()⟩,
         ⟨1 * (1 / (Real.sqrt ((2:ℤ) : ℝ) : ℂ)) * zfac 2 0, 1, ()⟩] := by
    rw [he1, keptL_cons, if_pos hca, keptL_cons, if_pos hca]
    rfl
  have habs2 : Complex.abs (1 * (1 / (Real.sqrt ((2:ℤ) : ℝ) : ℂ)) * zfac 2 0) ^ 2
      = 1 / 2 := by
    rw [hampval, div_pow, one_pow, Real.sq_sqrt (by norm_num : (0:ℝ) ≤ ((2:ℤ) : ℝ))]
    norm_num
  have hnu1 : Real.sqrt (sqAmps (keptL (mergeInto [] (qftExpand s0 (fun _ => 2) false)))) = 1 := by
    rw [hkept1, sqAmps_cons, sqAmps_cons, sqAmps_nil]
    dsimp only
    rw [habs2]
    rw [show (1:ℝ)/2 + (1/2 + 0) = 1 by norm_num, Real.sqrt_one]
  have hm2 : ∀ b ∈ mergeInto [] (qftExpand (qftRun s0 (fun _ => 2) false) (fun _ => 2) true),
      b.amp = 0 ∨ thresh < Complex.abs b.amp := by
    intro b hb
    have hdm2 : Dcfg (mergeInto [] (qftExpand (qftRun s0 (fun _ => 2) false) (fun _ => 2) true)) :=
      Dcfg_mergeInto [] _ List.Pairwise.nil
    have hamp : den (mergeInto [] (qftExpand (qftRun s0 (fun _ => 2) false) (fun _ => 2) true)) b.cfg
        = b.amp := den_eq_amp_of_mem hdm2 hb
    have hcfg : b.cfg = (b.tgt, b.rest) := rfl
    rw [hcfg, den_qft_roundtrip s0 2 hdq rfl hm1 b.tgt b.rest, hnu1,
      Complex.ofReal_one, div_one] at hamp
    by_cases ht : b.tgt = 0
    · right
      rw [← hamp]
      have hden1 : den s0.branches (b.tgt, b.rest) = 1 := by
        rw [ht]
        have hr : b.rest = () := rfl
        rw [hr]
        simp [den, s0]
      rw [hden1, map_one]
      exact hth1
    · left
      rw [← hamp]
      have hne : ¬ (((0:ℤ), ()) = (b.tgt, b.rest)) := by
        intro h
        injection h with h1 _
        exact ht h1.symm
      simp [den, s0, hne]
  have hdist0 : Dcfg s0.branches := by simp [Dcfg, s0]
  have hnz0 : ∀ b ∈ s0.branches, thresh < Complex.abs b.amp := by
    intro b hb
    simp only [s0, List.mem_singleton] at hb
    subst hb
    show thresh < Complex.abs 1
    rw [map_one]
    exact hth1
  have hnorm0 : sqAmps s0.branches = 1 := by simp [sqAmps, s0]
  have h := qft_involution s0 2 hdq rfl hdist0 hnz0 hnorm0 hm1 hex1 hm2
  exact ⟨hdq, h.1, h.2.2.1⟩

/-- Claim C5: uniqueness invariant for the cited primitives.  The
merge-and-prune output of `had` is always pairwise structurally distinct,
and the output of `init_list` is pairwise structurally distinct under the
primitive's preconditions: distinct input branches, target register zero on
every active branch, controls independent of the target (what
`assert_mutable` plus the expression key-set contract guarantee), and
pairwise distinct list entries. -/
theorem uniqueness_after_primitives {ρ : Type} [DecidableEq ρ] (s : Sim ρ) (val : List ℤ)
    (bit : Expr ρ)
    (hdist : Dcfg s.branches)
    (hc : ∀ ctrl ∈ s.controls, ∀ t t' : ℤ, ∀ r : ρ, ctrl (t, r) = ctrl (t', r))
    (hzero : ∀ b ∈ s.branches, goodB s.controls b = true → b.tgt = 0)
    (hnodup : val.Nodup) :
    (had s bit false false = .ok { s with branches := prune (hadMerged s bit) } ∧
      Dcfg (prune (hadMerged s bit))) ∧
    (∃ out, init_list s val false = .ok out ∧ Dcfg out.branches) := by
  constructor
  · exact ⟨rfl, Dcfg_prune (Dcfg_mergeInto [] _ List.Pairwise.nil)⟩
  · set f : Branch ρ → List (Branch ρ) := fun b =>
      if goodB s.controls b then
        val.map (fun x => ⟨b.amp / (Real.sqrt val.length : ℂ), x, b.rest⟩)
      else [b] with hf
    have hany : (s.branches.any (fun b => goodB s.controls b && b.tgt != 0)) = false := by
      simp only [List.any_eq_false, Bool.and_eq_true, bne_iff_ne, not_and, not_not]
      exact fun b hb => hzero b hb
    refine ⟨{ s with branches := expandWith f s.branches }, ?_, ?_⟩
    · unfold init_list
      rw [hany]
      simp only [Bool.false_eq_true, if_false]
      rw [if_neg (not_not_intro hnodup)]
    · show Dcfg (expandWith f s.branches)
      apply Dcfg_expandWith
      · intro b hb
        by_cases hg : goodB s.controls b
        · show Dcfg (f b)
          simp only [hf]
          rw [if_pos hg]
          unfold Dcfg
          rw [List.pairwise_map]
          refine hnodup.imp ?_
          intro x y hxy hcontra
          exact hxy (congrArg Prod.fst hcontra)
        · show Dcfg (f b)
          simp only [hf]
          rw [if_neg hg]
          exact List.pairwise_singleton _ _
      · refine hdist.imp_of_mem ?_
        intro a b ha hb hR x hx y hy
        by_cases hga : goodB s.controls a <;> by_cases hgb : goodB s.controls b
        · simp only [hf, if_pos hga] at hx
          simp only [hf, if_pos hgb] at hy
          rcases List.mem_map.mp hx with ⟨xa, hxa, rfl⟩
          rcases List.mem_map.mp hy with ⟨yb, hyb, rfl⟩
          intro hcontra
          have hr : a.rest = b.rest := congrArg Prod.snd hcontra
          apply hR
          show (a.tgt, a.rest) = (b.tgt, b.rest)
          rw [hzero a ha hga, hzero b hb hgb, hr]
        · simp only [hf, if_pos hga] at hx
          simp only [hf, if_neg (by simpa using hgb : ¬ goodB s.controls b = true)] at hy
          rcases List.mem_map.mp hx with ⟨xa, hxa, rfl⟩
          rcases List.mem_singleton.mp hy with rfl
          exact frozen_cfg_ne hc hga (by simpa using hgb) xa
        · simp only [hf, if_neg (by simpa using hga : ¬ goodB s.controls a = true)] at hx
          simp only [hf, if_pos hgb] at hy
          rcases List.mem_singleton.mp hx with rfl
          rcases List.mem_map.mp hy with ⟨yb, hyb, rfl⟩
          exact fun hEq => frozen_cfg_ne hc hgb (by simpa using hga) yb hEq.symm
        · simp only [hf, if_neg (by simpa using hga : ¬ goodB s.controls a = true)] at hx
          simp only [hf, if_neg (by simpa using hgb : ¬ goodB s.controls b = true)] at hy
          rcases List.mem_singleton.mp hx with rfl
          rcases List.mem_singleton.mp hy with rfl
          exact hR

/-- Claim C5 (witness): the theorem applied on the concrete fresh state `s0`
with list value `[3, 7]` and bit expression 0. -/
theorem uniqueness_after_primitives_witness :
    (had s0 (fun _ => 0) false false
        = .ok { s0 with branches := prune (hadMerged s0 (fun _ => 0)) } ∧
      Dcfg (prune (hadMerged s0 (fun _ => 0)))) ∧
    (∃ out, init_list s0 [3, 7] false = .ok out ∧ Dcfg out.branches) :=
  uniqueness_after_primitives s0 [3, 7] (fun _ => 0)
    (by simp [s0, Dcfg])
    (by intro ctrl h; cases h)
    (by intro b hb _; simp [s0] at hb; rw [hb])
    (by decide)

/-- Claim C4: control confinement.  With a nonempty control stack whose
expressions do not read the target register (what `assert_mutable` plus the
expression key-set contract guarantee), each primitive leaves every frozen
branch (one on which some control evaluates to 0) pointwise unchanged - same
configuration and same amplitude - including across the coherent merge and
the prune step of `had`, provided the branches are distinct with
above-threshold amplitudes and the pre-prune merged state keeps unit norm
(the global normalization invariant). -/
theorem control_confinement {ρ : Type} [DecidableEq ρ] (s : Sim ρ) (bit : Expr ρ)
    (doFn : Cfg ρ → ℤ) (theta : Cfg ρ → ℝ) (i1 i2 : Expr ρ) (val : Expr ρ)
    (_hcne : s.controls ≠ [])
    (hc : ∀ ctrl ∈ s.controls, ∀ t t' : ℤ, ∀ r : ρ, ctrl (t, r) = ctrl (t', r))
    (hdist : Dcfg s.branches)
    (hnz : ∀ b ∈ s.branches, thresh < Complex.abs b.amp)
    (hsq1 : sqAmps (keptL (hadMerged s bit)) = 1) :
    ∀ b ∈ s.branches, goodB s.controls b = false →
      (b ∈ (phase s theta).branches ∧
       (∀ out, oper s doFn false false = .ok out → b ∈ out.branches) ∧
       (∀ out, init_expr s val false false = .ok out → b ∈ out.branches) ∧
       (∀ out, cnot s i1 i2 false false = .ok out → b ∈ out.branches) ∧
       b ∈ prune (hadMerged s bit) ∧
       had s bit false false = .ok { s with branches := prune (hadMerged s bit) }) := by
  intro b hb hg
  have hgne : ¬ goodB s.controls b = true := by simp [hg]
  refine ⟨?_, ?_, ?_, ?_, ?_, rfl⟩
  · show b ∈ s.branches.map _
    exact List.mem_map.mpr ⟨b, hb, by rw [if_neg hgne]⟩
  · intro out hout
    have hrw : out = { s with branches := s.branches.map (fun x =>
        if goodB s.controls x then ⟨x.amp, doFn x.cfg, x.rest⟩ else x) } :=
      (Except.ok.inj hout).symm
    rw [hrw]
    exact List.mem_map.mpr ⟨b, hb, by rw [if_neg hgne]⟩
  · intro out hout
    have hie : init_expr s val false false
        = if (s.branches.any fun x => goodB s.controls x && x.tgt != 0) then
            .error (.valueErr "Register already initialized!")
          else .ok { s with branches := s.branches.map (fun x =>
            if goodB s.controls x then ⟨x.amp, val x.cfg, x.rest⟩ else x) } := rfl
    rw [hie] at hout
    by_cases hany : (s.branches.any fun x => goodB s.controls x && x.tgt != 0)
    · rw [if_pos hany] at hout; cases hout
    · rw [if_neg hany] at hout
      have hrw : out = { s with branches := s.branches.map (fun x =>
          if goodB s.controls x then ⟨x.amp, val x.cfg, x.rest⟩ else x) } :=
        (Except.ok.inj hout).symm
      rw [hrw]
      exact List.mem_map.mpr ⟨b, hb, by rw [if_neg hgne]⟩
  · intro out hout
    have hcn : cnot s i1 i2 false false
        = (cnotGo s.controls i1 i2 s.branches).map (fun l => { s with branches := l }) :=
      rfl
    rw [hcn] at hout
    cases hrec : cnotGo s.controls i1 i2 s.branches with
    | error e => rw [hrec] at hout; cases hout
    | ok l =>
      rw [hrec] at hout
      have hrw : out = { s with branches := l } := (Except.ok.inj hout).symm
      rw [hrw]
      exact cnotGo_frozen_mem hrec hb hg
  · have hbnz : b.amp ≠ 0 := by
      intro h0
      have hn := hnz b hb
      rw [h0, map_zero] at hn
      exact absurd hn (not_lt.mpr (le_of_lt thresh_pos))
    have hmem : b ∈ hadMerged s bit := by
      show b ∈ mergeInto [] (expandWith (fun a =>
        if goodB s.controls a then
          [⟨a.amp / (Real.sqrt 2 : ℂ), isetBit a.tgt (bit a.cfg).toNat false, a.rest⟩,
           ⟨(if ibit a.tgt (bit a.cfg).toNat then -1 else 1) * (a.amp / (Real.sqrt 2 : ℂ)),
            isetBit a.tgt (bit a.cfg).toNat true, a.rest⟩]
        else [a]) s.branches)
      apply mem_merged_of_frozen hb hdist
      · rw [if_neg hgne]
      · intro a ha hac x hx
        by_cases hga : goodB s.controls a
        · rw [if_pos hga] at hx
          rcases List.mem_cons.mp hx with h1 | h1
          · rw [h1]
            exact frozen_cfg_ne hc hga hg _
          · rcases List.mem_singleton.mp h1 with rfl
            exact frozen_cfg_ne hc hga hg _
        · rw [if_neg hga] at hx
          rcases List.mem_singleton.mp hx with rfl
          exact hac
      · exact hbnz
    have hkept : b ∈ keptL (hadMerged s bit) := mem_keptL.mpr ⟨hmem, hnz b hb⟩
    rw [prune_eq, hsq1, Real.sqrt_one]
    refine List.mem_map.mpr ⟨b, hkept, ?_⟩
    rw [Complex.ofReal_one, div_one]

/-- Claim C4 (witness): the theorem applied on the concrete controlled state
`sC4` and its frozen first branch; the unit-norm hypothesis on the pre-prune
merged Hadamard state is discharged by computing the merge. -/
theorem control_confinement_witness :
    ((⟨(((3 : ℝ)/5 : ℝ) : ℂ), 5, 0⟩ : Branch ℤ) ∈ (phase sC4 (fun _ => 0)).branches ∧
     (∀ out, oper sC4 (fun _ => 7) false false = .ok out →
        (⟨(((3 : ℝ)/5 : ℝ) : ℂ), 5, 0⟩ : Branch ℤ) ∈ out.branches) ∧
     (∀ out, init_expr sC4 (fun _ => 7) false false = .ok out →
        (⟨(((3 : ℝ)/5 : ℝ) : ℂ), 5, 0⟩ : Branch ℤ) ∈ out.branches) ∧
     (∀ out, cnot sC4 (fun _ => 0) (fun _ => 1) false false = .ok out →
        (⟨(((3 : ℝ)/5 : ℝ) : ℂ), 5, 0⟩ : Branch ℤ) ∈ out.branches) ∧
     (⟨(((3 : ℝ)/5 : ℝ) : ℂ), 5, 0⟩ : Branch ℤ) ∈ prune (hadMerged sC4 (fun _ => 0)) ∧
     had sC4 (fun _ => 0) false false
        = .ok { sC4 with branches := prune (hadMerged sC4 (fun _ => 0)) }) := by
  have hmerged : hadMerged sC4 (fun _ => 0)
      = [⟨(((3 : ℝ)/5 : ℝ) : ℂ), 5, 0⟩,
         ⟨(((4 : ℝ)/5 : ℝ) : ℂ) / (Real.sqrt 2 : ℂ), 0, 1⟩,
         ⟨(((4 : ℝ)/5 : ℝ) : ℂ) / (Real.sqrt 2 : ℂ), 1, 1⟩] := by
    unfold hadMerged hadExpand sC4
    simp [expandWith, mergeInto, insertB, goodB, ibit, isetBit, Nat.zero_testBit,
      Branch.cfg]
  have hs2p : 0 < Real.sqrt 2 := Real.sqrt_pos.mpr (by norm_num)
  have habs1 : Complex.abs ((((3 : ℝ)/5 : ℝ) : ℂ)) = 3/5 := by
    rw [Complex.abs_ofReal, abs_of_nonneg (by norm_num : (0 : ℝ) ≤ 3/5)]
  have habs2 : Complex.abs ((((4 : ℝ)/5 : ℝ) : ℂ) / (Real.sqrt 2 : ℂ))
      = (4/5) / Real.sqrt 2 := by
    rw [map_div₀, Complex.abs_ofReal, Complex.abs_ofReal,
      abs_of_nonneg (by norm_num : (0 : ℝ) ≤ 4/5), abs_of_nonneg (le_of_lt hs2p)]
  have hth2 : thresh < (4/5) / Real.sqrt 2 := by
    rw [lt_div_iff₀ hs2p]
    have hs2 : Real.sqrt 2 ≤ 2 := by
      nlinarith [Real.sq_sqrt (by norm_num : (0 : ℝ) ≤ 2), Real.sqrt_nonneg 2]
    unfold thresh
    nlinarith
  have hsq1 : sqAmps (keptL (hadMerged sC4 (fun _ => 0))) = 1 := by
    rw [hmerged, keptL_cons, if_pos (by rw [habs1]; unfold thresh; norm_num),
      keptL_cons, if_pos (by rw [habs2]; exact hth2),
      keptL_cons, if_pos (by rw [habs2]; exact hth2)]
    show sqAmps [_, _, _] = 1
    rw [sqAmps_cons, sqAmps_cons, sqAmps_cons, sqAmps_nil, habs1, habs2]
    have h22 : ((4 : ℝ)/5/Real.sqrt 2) ^ 2 = 8/25 := by
      rw [div_pow, Real.sq_sqrt (by norm_num : (0 : ℝ) ≤ 2)]
      norm_num
    rw [h22]
    norm_num
  exact control_confinement sC4 (fun _ => 0) (fun _ => 7) (fun _ => 0)
    (fun _ => 0) (fun _ => 1) (fun _ => 7)
    (by simp [sC4])
    (by intro ctrl hm t t' r; simp [sC4] at hm; rw [hm])
    (by unfold sC4 Dcfg; simp)
    (by
      intro x hx
      have hx' : x = (⟨(((3 : ℝ)/5 : ℝ) : ℂ), 5, 0⟩ : Branch ℤ) ∨
          x = (⟨(((4 : ℝ)/5 : ℝ) : ℂ), 0, 1⟩ : Branch ℤ) := by
        simpa [sC4] using hx
      rcases hx' with rfl | rfl
      · rw [habs1]; unfold thresh; norm_num
      · rw [Complex.abs_ofReal, abs_of_nonneg (by norm_num : (0 : ℝ) ≤ 4/5)]
        unfold thresh; norm_num)
    hsq1
    (⟨(((3 : ℝ)/5 : ℝ) : ℂ), 5, 0⟩ : Branch ℤ)
    (by unfold sC4; exact List.mem_cons_self _ _)
    rfl

/-- Claim C2 (counterexample): on the normalized two-branch state `sHalf`
with `val` the constant expression 0 and `postselect = False`,
`measure_state` returns the boolean outcome `False` (left injection), not
the complement-adjusted probability `16/25` the claim asserts it always
returns. -/
theorem measure_state_returns_outcome :
    (measure_state sHalf (fun _ => 0) false false false (some false) 0).map Prod.fst
      = .ok (Sum.inl false) := by
  have hfil : sHalf.branches.filter (fun b => b.tgt == (fun _ : Cfg Unit => (0 : ℤ)) b.cfg)
      = [⟨(((3 : ℝ)/5 : ℝ) : ℂ), 0, ()⟩] := by
    simp [sHalf]
  have hprob : sqAmps [(⟨(((3 : ℝ)/5 : ℝ) : ℂ), 0, ()⟩ : Branch Unit)] = 9/25 := by
    rw [sqAmps_cons, sqAmps_nil, Complex.abs_ofReal,
      abs_of_nonneg (by norm_num : (0 : ℝ) ≤ 3/5)]
    norm_num
  have hc : ¬ (1 - thresh < (9 : ℝ)/25) := by unfold thresh; norm_num
  have hms : measure_state sHalf (fun _ => 0) false false false (some false) 0
      = msGo sHalf (fun _ => 0) false false false (some false) 0 := rfl
  rw [hms]
  unfold msGo
  simp only [Bool.false_eq_true, if_false, hfil, hprob, if_neg hc]
  rfl

/-- Claim C2 (amended): for the Expression category at top level,
`measure_state` returns the (complement-adjusted) probability - as the right
injection - only when `postselect = True`; with `postselect = False` it
returns the boolean outcome `False` and with `postselect = None` the sampled
boolean outcome `r < prob`, in both cases the left injection, i.e. the value
Python returns from `return outcome`. -/
theorem measure_state_return_kinds {ρ : Type} [DecidableEq ρ] (s : Sim ρ) (val : Expr ρ)
    (r : ℝ) (hm : s.modeStack = []) :
    ((¬ sqAmps (s.branches.filter (fun b => b.tgt == val b.cfg)) < thresh) →
      (measure_state s val false false false (some true) r).map Prod.fst
        = .ok (Sum.inr (sqAmps (s.branches.filter (fun b => b.tgt == val b.cfg))))) ∧
    ((¬ 1 - thresh < sqAmps (s.branches.filter (fun b => b.tgt == val b.cfg))) →
      (measure_state s val false false false (some false) r).map Prod.fst
        = .ok (Sum.inl false)) ∧
    ((measure_state s val false false false none r).map Prod.fst
      = .ok (Sum.inl
          (decide (r < sqAmps (s.branches.filter (fun b => b.tgt == val b.cfg)))))) := by
  have he : s.modeStack.isEmpty = true := by rw [hm]; rfl
  refine ⟨fun h1 => ?_, fun h2 => ?_, ?_⟩
  · unfold measure_state
    rw [he]
    show (msGo s val false false false (some true) r).map Prod.fst = _
    unfold msGo
    simp only [Bool.false_eq_true, if_false, if_neg h1]
    rfl
  · unfold measure_state
    rw [he]
    show (msGo s val false false false (some false) r).map Prod.fst = _
    unfold msGo
    simp only [Bool.false_eq_true, if_false, if_neg h2]
    rfl
  · unfold measure_state
    rw [he]
    show (msGo s val false false false none r).map Prod.fst = _
    unfold msGo
    simp only [Bool.false_eq_true, if_false]
    rfl

/-- Claim C2 (witness): applying the amended theorem on the concrete state
`sHalf` with `postselect = True`, where the probability `9/25` is returned. -/
theorem measure_state_return_kinds_witness :
    (measure_state sHalf (fun _ => 0) false false false (some true) 0).map Prod.fst
      = .ok (Sum.inr (sqAmps (sHalf.branches.filter
          (fun b => b.tgt == (fun _ : Cfg Unit => (0 : ℤ)) b.cfg)))) :=
  (measure_state_return_kinds sHalf (fun _ => 0) 0 rfl).1 (by
    have hfil : sHalf.branches.filter
        (fun b => b.tgt == (fun _ : Cfg Unit => (0 : ℤ)) b.cfg)
        = [⟨(((3 : ℝ)/5 : ℝ) : ℂ), 0, ()⟩] := by
      simp [sHalf]
    rw [hfil, sqAmps_cons, sqAmps_nil, Complex.abs_ofReal,
      abs_of_nonneg (by norm_num : (0 : ℝ) ≤ 3/5)]
    unfold thresh
    norm_num)

end Qumquat
